import Mathlib

/-!
# gox: platform resolution and environment overlay

A shallow embedding of `PlatformFlag.Platforms` (pkg/config/config.go) and of
`envOverride` (cmd/root.go), with the properties of the platform resolution
engine and of the environment overlay proved about the embedding.

Conventions of the embedding

* Go strings are Lean strings.  `v[0]` is the first byte of `v`; the only byte
  the code looks for is `'!'` (ASCII), so the first byte is `'!'` exactly when
  the first character is.  Reading `v[0]` of the empty string panics, which is
  `none` here.
* `map[string]struct{}` is the list of its keys (only membership and
  emptiness are ever read); `map[string]Platform` is an association list with
  unique keys, where writing an existing key replaces its value.
* `for _, v := range m` over a map visits the entries in an order the Go
  runtime chooses.  That choice is the explicit argument `order`, a
  rearrangement of the entries of the map.
* A nil slice is `none`, a non-nil slice is `some`.
-/

namespace Gox

/-! ## Data model -/

/-- A build target, as in `config.Platform`. -/
structure Platform where
  OS : String
  Arch : String
  Default : Bool
  deriving DecidableEq

/-- Modelled from the spec: the method `Platform.String` (its file is not part
of the sources at hand); the spec gives the string form as `"OS/Arch"`. -/
def Platform.String (p : Platform) : String := p.OS ++ "/" ++ p.Arch

/-- The user's platform request, as in `config.PlatformFlag`. -/
structure PlatformFlag where
  OS : List String
  Arch : List String
  OSArch : List Platform
  All : Bool

/-! ## Strings -/

/-- The byte `v[0]`; `none` is the index-out-of-range panic on `""`. -/
def firstByte (v : String) : Option Char := v.data.head?

/-- The slice `v[1:]` of a string whose first byte is one character. -/
def dropFirst (v : String) : String := ⟨v.data.tail⟩

/-- The test `v[0] == '!'` on a non-empty string. -/
def isNegated (v : String) : Bool := firstByte v == some '!'

/-- A non-empty token that does not start with the negation marker. -/
def isPlain (v : String) : Bool := v.data ≠ [] && !isNegated v

/-- The name contains no `'/'`. -/
def noSlash (v : String) : Prop := '/' ∉ v.data

instance (v : String) : Decidable (noSlash v) := by
  unfold noSlash; infer_instance

/-! ## Maps -/

/-- The value type `map[string]Platform`. -/
abbrev PlatformMap := List (String × Platform)

/-- The test `_, ok := m[k]`. -/
def mapHas (m : PlatformMap) (k : String) : Bool := m.any (fun e => e.1 = k)

/-- The assignment `m[k] = v`. -/
def mapSet : PlatformMap → String → Platform → PlatformMap
  | [], k, v => [(k, v)]
  | (k', v') :: m, k, v => if k' = k then (k, v) :: m else (k', v') :: mapSet m k v

/-! ## `PlatformFlag.Platforms` -/

/-- One round of the loops of config.go:39-52 over `p.Arch` and `p.OS`: the
state is (keys of the ignore map, keys of the include map). -/
def tokenStep (st : List String × List String) (v : String) :
    Option (List String × List String) :=
  match firstByte v with
  | none => none
  | some c =>
    if c = '!' then some (st.1 ++ [dropFirst v], st.2)
    else some (st.1, st.2 ++ [v])

/-- The platform stored for a negated `p.OSArch` entry (config.go:55-58):
marker stripped, `Default` left at its zero value. -/
def stripMarker (v : Platform) : Platform :=
  { OS := dropFirst v.OS, Arch := v.Arch, Default := false }

/-- One round of the loop of config.go:53-64 over `p.OSArch`: the state is
(ignoreOSArch, includeOSArch). -/
def osArchStep (st : PlatformMap × PlatformMap) (v : Platform) :
    Option (PlatformMap × PlatformMap) :=
  match firstByte v.OS with
  | none => none
  | some c =>
    if c = '!' then
      some (mapSet st.1 (stripMarker v).String (stripMarker v), st.2)
    else some (st.1, mapSet st.2 v.String v)

/-- The six maps of config.go:33-38 after the loops of config.go:39-64. -/
structure Sets where
  ignoreArch : List String
  includeArch : List String
  ignoreOS : List String
  includeOS : List String
  ignoreOSArch : PlatformMap
  includeOSArch : PlatformMap

/-- Lines 33-64 of config.go; `none` when a first-byte read panics. -/
def buildSets (p : PlatformFlag) : Option Sets := do
  let a ← p.Arch.foldlM tokenStep ([], [])
  let o ← p.OS.foldlM tokenStep ([], [])
  let oa ← p.OSArch.foldlM osArchStep ([], [])
  pure ⟨a.1, a.2, o.1, o.2, oa.1, oa.2⟩

/-- The nested loops of config.go:82-97. -/
def crossProduct (s : Sets) (p : PlatformFlag) : List Platform :=
  p.OS.flatMap (fun os =>
    if os ∈ s.includeOS then
      p.Arch.filterMap (fun arch =>
        if arch ∈ s.includeArch then some ⟨os, arch, false⟩ else none)
    else [])

/-- The nested loops of config.go:104-110. -/
def osScan (p : PlatformFlag) (supported : List Platform) : List Platform :=
  p.OS.flatMap (fun os => supported.filter (fun platform => platform.OS = os))

/-- Lines 68-111 of config.go: the prefilter before the catalog check. -/
def buildPrefilter (order : PlatformMap → PlatformMap) (s : Sets) (p : PlatformFlag)
    (supported : List Platform) : Option (List Platform) :=
  let prefilter : Option (List Platform) :=
    if s.includeOSArch.length > 0 then some ((order s.includeOSArch).map Prod.snd)
    else none
  if s.includeOS.length > 0 ∧ s.includeArch.length > 0 then
    some (prefilter.getD [] ++ crossProduct s p)
  else if s.includeOS.length > 0 then
    some (prefilter.getD [] ++ osScan p supported)
  else prefilter

/-- The test of config.go:117-123. -/
def isSupported (supported : List Platform) (pending : Platform) : Bool :=
  supported.any (fun platform => pending.String = platform.String)

/-- Lines 115-132 of config.go. -/
def supportedOnly (supported : List Platform) (prefilter : List Platform) : List Platform :=
  prefilter.filterMap (fun pending =>
    if isSupported supported pending then some { pending with Default := false } else none)

/-- Lines 136-143 of config.go. -/
def defaults (all : Bool) (supported : List Platform) : List Platform :=
  supported.filterMap (fun v =>
    if v.Default || all then some { v with Default := false } else none)

/-- Lines 164-185 of config.go: `false` is one of the four `continue`s. -/
def componentsOK (s : Sets) (platform : Platform) : Bool :=
  if s.ignoreArch.length > 0 ∧ platform.Arch ∈ s.ignoreArch then false
  else if s.ignoreOS.length > 0 ∧ platform.OS ∈ s.ignoreOS then false
  else if s.includeArch.length > 0 ∧ platform.Arch ∉ s.includeArch then false
  else if s.includeOS.length > 0 ∧ platform.OS ∉ s.includeOS then false
  else true

/-- The body of the loop of config.go:148-188: `true` when the platform is
appended to the result. -/
def keep (s : Sets) (platform : Platform) : Bool :=
  if s.ignoreOSArch.length > 0 ∧ mapHas s.ignoreOSArch platform.String then false
  else
    let checkComponents : Bool :=
      if s.includeOSArch.length > 0 ∧ mapHas s.includeOSArch platform.String then false
      else true
    if checkComponents then componentsOK s platform else true

/-- The method `PlatformFlag.Platforms` (config.go:32-191). -/
def PlatformFlag.Platforms (p : PlatformFlag) (order : PlatformMap → PlatformMap)
    (supported : List Platform) : Option (List Platform) := do
  let s ← buildSets p
  let prefilter :=
    match buildPrefilter order s p supported with
    | some pre => supportedOnly supported pre
    | none => defaults p.All supported
  pure (prefilter.filter (keep s))

/-- Every first-byte read of `Platforms` is in bounds. -/
def inBounds (p : PlatformFlag) : Prop :=
  (∀ v ∈ p.Arch, v ≠ "") ∧ (∀ v ∈ p.OS, v ≠ "") ∧ (∀ v ∈ p.OSArch, v.OS ≠ "")

/-- An iteration order of a map visits every entry exactly once. -/
def IsOrder (order : PlatformMap → PlatformMap) : Prop := ∀ m, (order m).Perm m

/-! ## `envOverride` -/

/-- The process environment: `none` for a variable that is not set. -/
abbrev Env := String → Option String

/-- The call `os.Getenv`: the empty string for a variable that is not set. -/
def Getenv (env : Env) (key : String) : String := (env key).getD ""

/-- The name built at root.go:152-153; `ToUpper` is `strings.ToUpper`. -/
def overrideKey (ToUpper : String → String) (platform : Platform) (key : String) : String :=
  ToUpper ("GOX_" ++ platform.OS ++ "_" ++ platform.Arch ++ "_" ++ key)

/-- The function `envOverride` (root.go:151-157); the result is the value of
`*target` afterwards. -/
def envOverride (ToUpper : String → String) (env : Env) (target : String)
    (platform : Platform) (key : String) : String :=
  let v := Getenv env (overrideKey ToUpper platform key)
  if v ≠ "" then v else target

/-! ## The token loops -/

/-! ## Closed forms and the vocabulary of the properties -/

/-- The keys the loops of config.go:39-52 leave in the ignore map. -/
def negatedKeys (l : List String) : List String := (l.filter isNegated).map dropFirst

/-- The keys the loops of config.go:39-52 leave in the include map. -/
def plainKeys (l : List String) : List String := l.filter (fun v => !isNegated v)

/-- The map after the assignments `m[v.String()] = v` for `v` in `l`, in order. -/
def insertAll (m : PlatformMap) (l : List Platform) : PlatformMap :=
  l.foldl (fun m v => mapSet m v.String v) m

/-- The keys of a map are distinct and every value is stored under its string form. -/
def MapOK (m : PlatformMap) : Prop :=
  (m.map Prod.fst).Nodup ∧ ∀ e ∈ m, e.1 = e.2.String

/-! ## The loop over `p.OSArch` -/

/-- The platforms the loop of config.go:53-64 writes to ignoreOSArch. -/
def excludeEntries (l : List Platform) : List Platform :=
  (l.filter (fun v => isNegated v.OS)).map stripMarker

/-- The platforms the loop of config.go:53-64 writes to includeOSArch. -/
def includeEntries (l : List Platform) : List Platform :=
  l.filter (fun v => !isNegated v.OS)

/-! ## The maps in closed form -/

/-- The six maps of `Platforms` written out. -/
def setsOf (p : PlatformFlag) : Sets :=
  ⟨negatedKeys p.Arch, plainKeys p.Arch, negatedKeys p.OS, plainKeys p.OS,
   insertAll [] (excludeEntries p.OSArch), insertAll [] (includeEntries p.OSArch)⟩

/-- The list `Platforms` returns when no read panics. -/
def resolved (p : PlatformFlag) (order : PlatformMap → PlatformMap)
    (supported : List Platform) : List Platform :=
  (match buildPrefilter order (setsOf p) p supported with
    | some pre => supportedOnly supported pre
    | none => defaults p.All supported).filter (keep (setsOf p))

/-- The platform with `Default` set to false (config.go:126-127, 139-140). -/
def clearDefault (v : Platform) : Platform := { v with Default := false }

/-- The string form of `x` is that of an exclude pair of `p.OSArch`: an entry
whose OS begins with `'!'`, marker stripped. -/
def isExcludedPair (p : PlatformFlag) (x : Platform) : Bool :=
  p.OSArch.any (fun e => isNegated e.OS && decide ((stripMarker e).String = x.String))

/-- The token `"!" ++ name` is in the list: the name is negated there. -/
def negatedIn (l : List String) (name : String) : Bool := decide (("!" ++ name) ∈ l)

/-- The pair of `x` is an exclude pair of `p.OSArch`, the way `--osarch` names
it: some entry of `p.OSArch` reads `"!" ++ OS ++ "/" ++ Arch`. -/
def excludedByOSArch (p : PlatformFlag) (x : Platform) : Bool :=
  negatedIn (p.OSArch.map (fun e => e.OS ++ "/" ++ e.Arch)) (x.OS ++ "/" ++ x.Arch)

/-- The catalog of the scenarios of the spec: linux/amd64 (default),
linux/arm64, darwin/amd64 (default). -/
def scenarioCatalog : List Platform :=
  [⟨"linux", "amd64", true⟩, ⟨"linux", "arm64", false⟩, ⟨"darwin", "amd64", true⟩]

/-- The pair of a platform. -/
def pairOf (x : Platform) : String × String := (x.OS, x.Arch)

/-- The platforms the lists `p.OS` and `p.Arch` add to the prefilter
(config.go:76-111). -/
def listPart (s : Sets) (p : PlatformFlag) (supported : List Platform) : List Platform :=
  if s.includeOS.length > 0 ∧ s.includeArch.length > 0 then crossProduct s p
  else if s.includeOS.length > 0 then osScan p supported
  else []

instance (p : PlatformFlag) : Decidable (inBounds p) := by
  unfold inBounds; infer_instance

/-- An upper-casing of ASCII letters, to run `envOverride` on an example. -/
def asciiUpper (s : String) : String := ⟨s.data.map Char.toUpper⟩

/-- An environment where only `GOX_LINUX_AMD64_LDFLAGS` is set. -/
def scenarioEnv : Env := fun k => if k = "GOX_LINUX_AMD64_LDFLAGS" then some "-s -w" else none

/-! ## The configuration and the start of `main` -/

/-- The configuration, as in `config.Config`. -/
structure Config where
  BuildToolchain : Bool
  Ldflags : String
  Asmflags : String
  Gcflags : String
  Output : String
  Parallel : Int
  Tags : String
  Cgo : Bool
  Rebuild : Bool
  Race : Bool
  GoCmd : String
  ModMode : String
  PlatformFlag : PlatformFlag

/-- The value of a Go `int` (64 bits) after an arithmetic operation. -/
def wrapInt (x : Int) : Int := (x + 2 ^ 63) % 2 ^ 64 - 2 ^ 63

/-- Lines 47-54 of root.go: the value of `cfg.Parallel` afterwards, where
`cpus` is `runtime.NumCPU()`.  It is the capacity of the semaphore
(root.go:112). -/
def parallelCeiling (parallel cpus : Int) : Int :=
  if parallel < 2 then
    if cpus ≠ 1 then wrapInt (cpus - 1) else cpus
  else parallel

/-- Lines 124-126 of root.go: the three calls of `envOverride` on the fields
of the shared configuration; the result is the configuration afterwards. -/
def overlayStep (ToUpper : String → String) (env : Env) (cfg : Config)
    (platform : Platform) : Config :=
  let cfg₁ := { cfg with Ldflags := envOverride ToUpper env cfg.Ldflags platform "LDFLAGS" }
  let cfg₂ := { cfg₁ with Gcflags := envOverride ToUpper env cfg₁.Gcflags platform "GCFLAGS" }
  { cfg₂ with Asmflags := envOverride ToUpper env cfg₂.Asmflags platform "ASMFLAGS" }

/-- The configuration of root.go:16-35 with linker flags `-X`. -/
def scenarioConfig : Config :=
  { BuildToolchain := false, Ldflags := "-X", Asmflags := "", Gcflags := "", Output := "",
    Parallel := -1, Tags := "", Cgo := false, Rebuild := false, Race := false, GoCmd := "go",
    ModMode := "mod", PlatformFlag := ⟨[], [], [], false⟩ }

/-! ## `GoCrossCompile`: the environment of a task -/

/-- Lines 24-38 of go.go: the environment handed to the go command.
`environ` is `os.Environ()`, `env` answers `os.Getenv`, `hostOS` and `hostArch`
are `runtime.GOOS` and `runtime.GOARCH`. -/
def taskEnv (environ : List String) (env : Env) (hostOS hostArch : String) (cfg : Config)
    (platform : Platform) : List String :=
  let env₀ := environ ++ ["GOOS=" ++ platform.OS, "GOARCH=" ++ platform.Arch]
  let cgo : Bool :=
    if !cfg.Cgo && decide (Getenv env "CGO_ENABLED" ≠ "0") then
      decide (hostOS = platform.OS) && decide (hostArch = platform.Arch)
    else cfg.Cgo
  if cgo then env₀ ++ ["CGO_ENABLED=1"] else env₀ ++ ["CGO_ENABLED=0"]

/-! ## `BuildToolchain`: the version test -/

/-- Lines 15-30 of toolchain.go: `some 1` is one of the three early returns,
`none` means that the function goes on to `GoRoot`, to the platforms and to the
build scripts.  `lookPathOK` tells whether `exec.LookPath("go")` succeeded and
`version` is the result of `GoVersionParts`. -/
def toolchainGate (lookPathOK : Bool) (version : Except String (Int × Int)) : Option Int :=
  if !lookPathOK then some 1
  else
    match version with
    | .error _ => some 1
    | .ok versionParts =>
      if versionParts.1 ≥ 1 ∧ versionParts.2 ≥ 5 then some 1 else none

/-! ## `GoCrossCompile`: the output path -/

/-- The data of the output template, as in `pkg.OutputTemplateData`. -/
structure OutputTemplateData where
  Dir : String
  OS : String
  Arch : String

/-- The default of the flag `--output` (root.go:220). -/
def defaultOutput : String := "\x7b\x7b.Dir\x7d\x7d_\x7b\x7b.OS\x7d\x7d_\x7b\x7b.Arch\x7d\x7d"

/-- Lines 40-56 of go.go: the output path before `filepath.Abs`, or the error
of the template.  `Render` is `template.Parse` followed by `Execute` and `Base`
is `filepath.Base`. -/
def renderOutput (Render : String → OutputTemplateData → Except String String)
    (Base : String → String) (cfg : Config) (platform : Platform) (packagePath : String) :
    Except String String :=
  match Render cfg.Output ⟨Base packagePath, platform.OS, platform.Arch⟩ with
  | .error err => .error err
  | .ok outputPath =>
    if platform.OS = "windows" then .ok (outputPath ++ ".exe") else .ok outputPath

/-- The list `s` begins with the list `pre`. -/
def beginsWith : List Char → List Char → Bool
  | [], _ => true
  | _ :: _, [] => false
  | a :: pre, b :: s => a = b && beginsWith pre s

/-- A template engine for the three field actions of the output template,
to run `renderOutput` on an example: every other character is copied. -/
def fieldRender (d : OutputTemplateData) : Nat → List Char → List Char
  | 0, _ => []
  | _ + 1, [] => []
  | n + 1, c :: s =>
    if beginsWith "\x7b\x7b.Dir\x7d\x7d".data (c :: s) then
      d.Dir.data ++ fieldRender d n (s.drop 7)
    else if beginsWith "\x7b\x7b.OS\x7d\x7d".data (c :: s) then
      d.OS.data ++ fieldRender d n (s.drop 6)
    else if beginsWith "\x7b\x7b.Arch\x7d\x7d".data (c :: s) then
      d.Arch.data ++ fieldRender d n (s.drop 8)
    else c :: fieldRender d n s

/-- The engine `fieldRender` as an argument of `renderOutput`. -/
def scenarioRender (tpl : String) (d : OutputTemplateData) : Except String String :=
  .ok ⟨fieldRender d tpl.data.length tpl.data⟩

/-- The last element of a slash-separated path, to run `renderOutput` on an
example. -/
def lastElement : List Char → List Char → List Char
  | acc, [] => acc
  | acc, c :: s => if c = '/' then lastElement [] s else lastElement (acc ++ [c]) s

/-- The function `lastElement` as an argument of `renderOutput`. -/
def scenarioBase (path : String) : String := ⟨lastElement [] path.data⟩

/-! ## `appendPlatformValue.Set` -/

/-- The call `strings.Split(s, sep)` for a separator of one byte: the pieces
between the occurrences of the separator, empty pieces included. -/
def splitOn (sep : Char) : List Char → List (List Char)
  | [] => [[]]
  | c :: s =>
    if c = sep then [] :: splitOn sep s
    else
      match splitOn sep s with
      | [] => [[c]]
      | piece :: pieces => (c :: piece) :: pieces

/-- The method `appendIfMissing` (config.go:232-240): the list afterwards. -/
def appendIfMissing (s : List Platform) (value : Platform) : List Platform :=
  if s.any (fun existing => existing = value) then s else s ++ [value]

/-- The error of config.go:214. -/
def syntaxError (v : String) : String :=
  "invalid platform syntax: " ++ v ++ " should be os/arch"

/-- The loop of config.go:211-223 over the tokens: the list afterwards and the
error returned, if any.  `ToLower` is `strings.ToLower`. -/
def setLoop (ToLower : String → String) : List (List Char) → List Platform →
    List Platform × Option String
  | [], s => (s, none)
  | v :: rest, s =>
    match splitOn '/' v with
    | [os, arch] => setLoop ToLower rest (appendIfMissing s ⟨ToLower ⟨os⟩, ToLower ⟨arch⟩, false⟩)
    | _ => (s, some (syntaxError ⟨v⟩))

/-- The method `appendPlatformValue.Set` (config.go:206-226): the list
afterwards and the error returned, if any. -/
def appendPlatformValue.Set (ToLower : String → String) (s : List Platform) (value : String) :
    List Platform × Option String :=
  if value = "" then (s, none) else setLoop ToLower (splitOn ' ' value.data) s

/-- The token has exactly two parts separated by `/`. -/
def twoParts (v : List Char) : Bool := (splitOn '/' v).length = 2

/-- The lower-cased platform of a token with two parts. -/
def tokenPlatform (ToLower : String → String) (v : List Char) : Platform :=
  match splitOn '/' v with
  | [os, arch] => ⟨ToLower ⟨os⟩, ToLower ⟨arch⟩, false⟩
  | _ => ⟨"", "", false⟩

/-- The list `s` followed, in order, by each platform of `new` that is not
already present. -/
def addMissing (s : List Platform) (new : List Platform) : List Platform :=
  new.foldl (fun acc v => if v ∈ acc then acc else acc ++ [v]) s

/-- A lower-casing of ASCII letters, to run `Set` on an example. -/
def asciiLower (s : String) : String := ⟨s.data.map Char.toLower⟩

/-! ## The build phase of `main` -/

/-- One build task of `main`: a platform and an entry point (root.go:113-114). -/
structure Task where
  platform : Platform
  path : String

/-- The tasks of the loops of root.go:113-137, in the order in which their
goroutines are started. -/
def buildTasks (platforms : List Platform) (mainDirs : List String) : List Task :=
  platforms.flatMap (fun platform => mainDirs.map (fun path => ⟨platform, path⟩))

/-- Where a build goroutine (root.go:117-135) stands.
`waiting`: started, the send of line 119 has not gone through.
`building`: the gate is held, lines 120-128 are running.
`failed`: `GoCrossCompile` has returned an error, the lock of line 129 is not yet taken.
`built`: `GoCrossCompile` has returned and its error, if any, is appended; the
receive of line 134 is next.
`finished`: the gate is released and the goroutine has returned. -/
inductive Phase
  | waiting
  | building
  | failed
  | built
  | finished
  deriving DecidableEq

/-- A build goroutine: its number in start order, its task, where it stands
and how many calls of `GoCrossCompile` it has completed. -/
structure Goroutine where
  idx : Nat
  task : Task
  phase : Phase
  calls : Nat

/-- The state shared by the goroutines of root.go:109-138: the goroutines, the
number of elements in the channel `semaphore`, the holder of `errorLock`, the
list `errors` and the configuration. -/
structure BuildState where
  goroutines : List Goroutine
  gate : Nat
  lock : Option Nat
  errors : List String
  cfg : Config

/-- What surrounds the build phase: `strings.ToUpper`, the environment, the
error `GoCrossCompile` returns in the call of each goroutine (`none` for a
success) and the capacity of `semaphore`, which is `cfg.Parallel`. -/
structure World where
  ToUpper : String → String
  env : Env
  outcome : Nat → Option String
  capacity : Nat

/-- The goroutines of the tasks, numbered from `k`, all waiting. -/
def spawn : Nat → List Task → List Goroutine
  | _, [] => []
  | k, t :: ts => ⟨k, t, .waiting, 0⟩ :: spawn (k + 1) ts

/-- The state after the loops of root.go:113-137 have started every goroutine. -/
def initialState (cfg : Config) (platforms : List Platform) (mainDirs : List String) :
    BuildState :=
  ⟨spawn 0 (buildTasks platforms mainDirs), 0, none, [], cfg⟩

/-- The entry of root.go:131-132. -/
def errorLine (platform : Platform) (err : String) : String :=
  platform.String ++ " error: " ++ err

/-- One step of goroutine `i`; `none` when it is blocked or has returned.
A waiting goroutine sends on `semaphore` (line 119), which needs room in the
channel.  A building one runs the overlay and `GoCrossCompile` (lines 124-128).
A failed one takes `errorLock` and appends its error (lines 129-132).  A built
one receives from `semaphore` (line 134) and returns, which unlocks
`errorLock` if it holds it. -/
def advance (w : World) (s : BuildState) (i : Nat) : Option BuildState :=
  match s.goroutines[i]? with
  | none => none
  | some g =>
    match g.phase with
    | .waiting =>
      if s.gate < w.capacity then
        some { s with
          goroutines := s.goroutines.set i { g with phase := .building }
          gate := s.gate + 1 }
      else none
    | .building =>
      some { s with
        goroutines := s.goroutines.set i
          { g with
            phase := if (w.outcome g.idx).isSome then .failed else .built
            calls := g.calls + 1 }
        cfg := overlayStep w.ToUpper w.env s.cfg g.task.platform }
    | .failed =>
      if s.lock = none then
        some { s with
          goroutines := s.goroutines.set i { g with phase := .built }
          lock := some g.idx
          errors := s.errors ++
            (match w.outcome g.idx with
              | some err => [errorLine g.task.platform err]
              | none => []) }
      else none
    | .built =>
      some { s with
        goroutines := s.goroutines.set i { g with phase := .finished }
        gate := s.gate - 1
        lock := if s.lock = some g.idx then none else s.lock }
    | .finished => none

/-- The steps of a schedule, one goroutine number after the other; `none`
when the schedule picks a goroutine that cannot move. -/
def runSchedule (w : World) : List Nat → BuildState → Option BuildState
  | [], s => some s
  | i :: rest, s =>
    match advance w s i with
    | none => none
    | some s' => runSchedule w rest s'

/-- Every goroutine has returned: `wg.Wait()` (root.go:138) is over. -/
def allFinished (s : BuildState) : Bool := s.goroutines.all (fun g => g.phase = .finished)

/-- A goroutine between the send of line 119 and the receive of line 134. -/
def Phase.busy : Phase → Nat
  | .building => 1
  | .failed => 1
  | .built => 1
  | _ => 0

/-- How far a goroutine has come. -/
def Phase.rank : Phase → Nat
  | .waiting => 0
  | .building => 1
  | .failed => 2
  | .built => 3
  | .finished => 4

/-- The number of goroutines between acquiring and releasing the gate. -/
def inFlight (s : BuildState) : Nat := (s.goroutines.map (fun g => g.phase.busy)).sum

/-- The sum of the ranks of the goroutines. -/
def progress (s : BuildState) : Nat := (s.goroutines.map (fun g => g.phase.rank)).sum

/-- Lines 140-148 of root.go: the value `main` returns after the build phase. -/
def exitStatus (errors : List String) : Int := if errors.length > 0 then 1 else 0

/-- The entry a goroutine has appended to `errors`, if any. -/
def appended (w : World) (g : Goroutine) : Option String :=
  if g.phase = .built ∨ g.phase = .finished then
    (w.outcome g.idx).map (errorLine g.task.platform)
  else none

/-- One entry for each failing call, in start order. -/
def failureLines (w : World) (platforms : List Platform) (mainDirs : List String) :
    List String :=
  (spawn 0 (buildTasks platforms mainDirs)).filterMap
    (fun g => (w.outcome g.idx).map (errorLine g.task.platform))

/-- The number of calls of `GoCrossCompile` that fail among the first `n`. -/
def failureCount (w : World) (n : Nat) : Nat :=
  ((List.range n).filter (fun i => (w.outcome i).isSome)).length

/-- What holds of every state of the build phase. -/
structure Reachable (w : World) (s : BuildState) : Prop where
  gate_eq : s.gate = inFlight s
  gate_le : s.gate ≤ w.capacity
  calls_eq : ∀ g ∈ s.goroutines,
    g.calls = if g.phase = .waiting ∨ g.phase = .building then 0 else 1
  lock_held : ∀ j, s.lock = some j → ∃ g ∈ s.goroutines, g.idx = j ∧ g.phase = .built
  errors_perm : s.errors.Perm (s.goroutines.filterMap (appended w))

/-- A world where the second call fails, with room for two tasks. -/
def scenarioWorld : World :=
  ⟨asciiUpper, scenarioEnv, fun i => if i = 1 then some "exit status 2" else none, 2⟩

/-- The part of a goroutine that no step changes. -/
def coreOf (g : Goroutine) : Nat × Task := (g.idx, g.task)

/-- The entry of a failing call, from the number and the task of its goroutine. -/
def lineOf (w : World) (c : Nat × Task) : Option String :=
  (w.outcome c.1).map (errorLine c.2.platform)

/-- The run of two tasks for linux/amd64 in the world `scenarioWorld`, where
the second call fails: both take the gate, then each builds and returns. -/
def scenarioRun : Option BuildState :=
  runSchedule scenarioWorld [0, 1, 0, 1, 1, 0, 1]
    (initialState scenarioConfig [⟨"linux", "amd64", false⟩] ["a", "b"])

/-! ## Auxiliary facts and the claims -/

/-! ## Strings: basic facts -/

theorem firstByte_eq_none_iff (v : String) : firstByte v = none ↔ v = "" := by
  unfold firstByte
  constructor
  · intro h
    apply String.ext
    cases hd : v.data with
    | nil => rfl
    | cons c cs => rw [hd] at h; simp at h
  · intro h; subst h; rfl

theorem isNegated_of_firstByte {v : String} {c : Char} (h : firstByte v = some c) :
    isNegated v = decide (c = '!') := by
  unfold isNegated; rw [h]; simp; rfl

theorem tokenStep_eq {st : List String × List String} {v : String} (h : v ≠ "") :
    tokenStep st v =
      some (st.1 ++ negatedKeys [v], st.2 ++ plainKeys [v]) := by
  unfold tokenStep
  cases hf : firstByte v with
  | none => exact absurd ((firstByte_eq_none_iff v).1 hf) h
  | some c =>
    have hn := isNegated_of_firstByte hf
    by_cases hc : c = '!'
    · simp [negatedKeys, plainKeys, hn, hc, List.filter]
    · simp [negatedKeys, plainKeys, hn, hc, List.filter]

theorem tokenStep_none {st : List String × List String} : tokenStep st "" = none := rfl

theorem foldlM_tokenStep (l : List String) (h : ∀ v ∈ l, v ≠ "")
    (st : List String × List String) :
    l.foldlM tokenStep st = some (st.1 ++ negatedKeys l, st.2 ++ plainKeys l) := by
  induction l generalizing st with
  | nil => simp [negatedKeys, plainKeys]
  | cons v l ih =>
    have hv : v ≠ "" := h v (List.mem_cons_self _ _)
    rw [List.foldlM_cons, tokenStep_eq hv]
    simp only [Option.bind_eq_bind, Option.some_bind]
    rw [ih (fun w hw => h w (List.mem_cons_of_mem _ hw))]
    simp [negatedKeys, plainKeys, List.filter_cons]
    constructor <;> split <;> simp

theorem foldlM_tokenStep_some {l : List String} {st st' : List String × List String}
    (h : l.foldlM tokenStep st = some st') : ∀ v ∈ l, v ≠ "" := by
  induction l generalizing st with
  | nil => simp
  | cons v l ih =>
    rw [List.foldlM_cons] at h
    intro w hw
    by_cases hv : v = ""
    · subst hv; rw [tokenStep_none] at h; simp at h
    · rw [tokenStep_eq hv] at h
      simp only [Option.bind_eq_bind, Option.some_bind] at h
      rcases List.mem_cons.1 hw with rfl | hw
      · exact hv
      · exact ih h w hw

/-! ## Maps: basic facts -/

theorem mapHas_iff {m : PlatformMap} {k : String} :
    mapHas m k = true ↔ ∃ e ∈ m, e.1 = k := by
  simp [mapHas]

theorem mapHas_pos {m : PlatformMap} {k : String} (h : mapHas m k = true) :
    m.length > 0 := by
  cases m with
  | nil => simp [mapHas] at h
  | cons e m => simp

theorem mem_mapSet {m : PlatformMap} {k : String} {v : Platform} {e : String × Platform}
    (h : e ∈ mapSet m k v) : e ∈ m ∨ e = (k, v) := by
  induction m with
  | nil => simp [mapSet] at h; exact Or.inr h
  | cons a m ih =>
    obtain ⟨k', v'⟩ := a
    unfold mapSet at h
    split at h
    · rcases List.mem_cons.1 h with h | h
      · exact Or.inr h
      · exact Or.inl (List.mem_cons_of_mem _ h)
    · rcases List.mem_cons.1 h with h | h
      · exact Or.inl (h ▸ List.mem_cons_self _ _)
      · rcases ih h with h | h
        · exact Or.inl (List.mem_cons_of_mem _ h)
        · exact Or.inr h

theorem mapSet_keys (m : PlatformMap) (k : String) (v : Platform) :
    (mapSet m k v).map Prod.fst =
      if k ∈ m.map Prod.fst then m.map Prod.fst else m.map Prod.fst ++ [k] := by
  induction m with
  | nil => simp [mapSet]
  | cons a m ih =>
    obtain ⟨k', v'⟩ := a
    unfold mapSet
    by_cases hk : k' = k
    · subst hk; simp
    · have hk' : ¬ k = k' := fun h => hk h.symm
      simp only [hk, if_false, List.map_cons, ih, List.mem_cons, hk', false_or]
      split <;> simp

theorem mapSet_mem_self (m : PlatformMap) (k : String) (v : Platform) :
    (k, v) ∈ mapSet m k v := by
  induction m with
  | nil => simp [mapSet]
  | cons a m ih =>
    obtain ⟨k', v'⟩ := a
    unfold mapSet
    split
    · exact List.mem_cons_self _ _
    · exact List.mem_cons_of_mem _ ih

theorem MapOK_nil : MapOK [] := by simp [MapOK]

theorem MapOK_mapSet {m : PlatformMap} (h : MapOK m) (v : Platform) :
    MapOK (mapSet m v.String v) := by
  constructor
  · rw [mapSet_keys]
    split
    · exact h.1
    · rename_i hk
      exact List.Nodup.append h.1 (List.nodup_singleton _) (by simpa using hk)
  · intro e he
    rcases mem_mapSet he with he | he
    · exact h.2 e he
    · subst he; rfl

theorem MapOK_insertAll {m : PlatformMap} (h : MapOK m) (l : List Platform) :
    MapOK (insertAll m l) := by
  induction l generalizing m with
  | nil => exact h
  | cons v l ih => exact ih (MapOK_mapSet h v)

theorem keys_insertAll (m : PlatformMap) (l : List Platform) (k : String) :
    k ∈ (insertAll m l).map Prod.fst ↔ k ∈ m.map Prod.fst ∨ ∃ v ∈ l, v.String = k := by
  induction l generalizing m with
  | nil => simp [insertAll]
  | cons v l ih =>
    show k ∈ (insertAll (mapSet m v.String v) l).map Prod.fst ↔ _
    rw [ih, mapSet_keys]
    by_cases hv : v.String ∈ m.map Prod.fst
    · rw [if_pos hv]
      constructor
      · rintro (h | ⟨w, hw, rfl⟩)
        · exact Or.inl h
        · exact Or.inr ⟨w, List.mem_cons_of_mem _ hw, rfl⟩
      · rintro (h | ⟨w, hw, rfl⟩)
        · exact Or.inl h
        · rcases List.mem_cons.1 hw with rfl | hw
          · exact Or.inl hv
          · exact Or.inr ⟨w, hw, rfl⟩
    · rw [if_neg hv]
      constructor
      · rintro (h | ⟨w, hw, rfl⟩)
        · rcases List.mem_append.1 h with h | h
          · exact Or.inl h
          · exact Or.inr ⟨v, List.mem_cons_self _ _, (List.mem_singleton.1 h).symm⟩
        · exact Or.inr ⟨w, List.mem_cons_of_mem _ hw, rfl⟩
      · rintro (h | ⟨w, hw, rfl⟩)
        · exact Or.inl (List.mem_append_left _ h)
        · rcases List.mem_cons.1 hw with rfl | hw
          · exact Or.inl (List.mem_append_right _ (List.mem_singleton.2 rfl))
          · exact Or.inr ⟨w, hw, rfl⟩

theorem mapHas_eq_keys (m : PlatformMap) (k : String) :
    mapHas m k = true ↔ k ∈ m.map Prod.fst := by
  simp [mapHas]

theorem mapHas_insertAll_nil (l : List Platform) (k : String) :
    mapHas (insertAll [] l) k = true ↔ ∃ v ∈ l, v.String = k := by
  rw [mapHas_eq_keys, keys_insertAll]; simp

theorem mem_insertAll {m : PlatformMap} {l : List Platform} {e : String × Platform}
    (h : e ∈ insertAll m l) : e ∈ m ∨ (e.2 ∈ l ∧ e.1 = e.2.String) := by
  induction l generalizing m with
  | nil => exact Or.inl h
  | cons v l ih =>
    rcases ih (m := mapSet m v.String v) h with h | ⟨h1, h2⟩
    · rcases mem_mapSet h with h | h
      · exact Or.inl h
      · subst h; exact Or.inr ⟨List.mem_cons_self _ _, rfl⟩
    · exact Or.inr ⟨List.mem_cons_of_mem _ h1, h2⟩

theorem insertAll_length_pos (l : List Platform) :
    (insertAll [] l).length > 0 ↔ l ≠ [] := by
  constructor
  · intro h hl; subst hl; simp [insertAll] at h
  · intro h
    cases l with
    | nil => exact absurd rfl h
    | cons v l =>
      have : mapHas (insertAll [] (v :: l)) v.String = true :=
        (mapHas_insertAll_nil _ _).2 ⟨v, List.mem_cons_self _ _, rfl⟩
      exact mapHas_pos this

theorem osArchStep_eq {st : PlatformMap × PlatformMap} {v : Platform} (h : v.OS ≠ "") :
    osArchStep st v =
      some (insertAll st.1 (excludeEntries [v]), insertAll st.2 (includeEntries [v])) := by
  unfold osArchStep
  cases hf : firstByte v.OS with
  | none => exact absurd ((firstByte_eq_none_iff _).1 hf) h
  | some c =>
    have hn := isNegated_of_firstByte hf
    by_cases hc : c = '!'
    · simp [excludeEntries, includeEntries, hn, hc, List.filter, insertAll]
    · simp [excludeEntries, includeEntries, hn, hc, List.filter, insertAll]

theorem osArchStep_none {st : PlatformMap × PlatformMap} {v : Platform} (h : v.OS = "") :
    osArchStep st v = none := by
  unfold osArchStep; rw [h]; rfl

theorem insertAll_append (m : PlatformMap) (l₁ l₂ : List Platform) :
    insertAll m (l₁ ++ l₂) = insertAll (insertAll m l₁) l₂ := by
  simp [insertAll, List.foldl_append]

theorem excludeEntries_cons (v : Platform) (l : List Platform) :
    excludeEntries (v :: l) = excludeEntries [v] ++ excludeEntries l := by
  simp only [excludeEntries, List.filter_cons, List.filter_nil]
  split <;> simp

theorem includeEntries_cons (v : Platform) (l : List Platform) :
    includeEntries (v :: l) = includeEntries [v] ++ includeEntries l := by
  simp only [includeEntries, List.filter_cons, List.filter_nil]
  split <;> simp

theorem foldlM_osArchStep (l : List Platform) (h : ∀ v ∈ l, v.OS ≠ "")
    (st : PlatformMap × PlatformMap) :
    l.foldlM osArchStep st =
      some (insertAll st.1 (excludeEntries l), insertAll st.2 (includeEntries l)) := by
  induction l generalizing st with
  | nil => simp [excludeEntries, includeEntries, insertAll]
  | cons v l ih =>
    have hv : v.OS ≠ "" := h v (List.mem_cons_self _ _)
    rw [List.foldlM_cons, osArchStep_eq hv]
    simp only [Option.bind_eq_bind, Option.some_bind]
    rw [ih (fun w hw => h w (List.mem_cons_of_mem _ hw)),
      excludeEntries_cons v l, includeEntries_cons v l, insertAll_append, insertAll_append]

theorem foldlM_osArchStep_some {l : List Platform} {st st' : PlatformMap × PlatformMap}
    (h : l.foldlM osArchStep st = some st') : ∀ v ∈ l, v.OS ≠ "" := by
  induction l generalizing st with
  | nil => simp
  | cons v l ih =>
    rw [List.foldlM_cons] at h
    intro w hw
    by_cases hv : v.OS = ""
    · rw [osArchStep_none hv] at h; simp at h
    · rw [osArchStep_eq hv] at h
      simp only [Option.bind_eq_bind, Option.some_bind] at h
      rcases List.mem_cons.1 hw with rfl | hw
      · exact hv
      · exact ih h w hw

theorem buildSets_eq {p : PlatformFlag} (h : inBounds p) : buildSets p = some (setsOf p) := by
  unfold buildSets
  rw [foldlM_tokenStep p.Arch h.1, foldlM_tokenStep p.OS h.2.1,
    foldlM_osArchStep p.OSArch h.2.2]
  rfl

theorem buildSets_some {p : PlatformFlag} {s : Sets} (h : buildSets p = some s) :
    inBounds p := by
  unfold buildSets at h
  cases ha : p.Arch.foldlM tokenStep ([], []) with
  | none => rw [ha] at h; simp at h
  | some a =>
    cases ho : p.OS.foldlM tokenStep ([], []) with
    | none => rw [ha, ho] at h; simp at h
    | some o =>
      cases hoa : p.OSArch.foldlM osArchStep ([], []) with
      | none => rw [ha, ho, hoa] at h; simp at h
      | some oa =>
        exact ⟨foldlM_tokenStep_some ha, foldlM_tokenStep_some ho, foldlM_osArchStep_some hoa⟩

theorem Platforms_eq {p : PlatformFlag} (h : inBounds p) (order : PlatformMap → PlatformMap)
    (supported : List Platform) :
    p.Platforms order supported = some (resolved p order supported) := by
  unfold PlatformFlag.Platforms
  rw [buildSets_eq h]
  rfl

theorem Platforms_some {p : PlatformFlag} {order : PlatformMap → PlatformMap}
    {supported r : List Platform} (h : p.Platforms order supported = some r) :
    inBounds p ∧ r = resolved p order supported := by
  have hb : inBounds p := by
    unfold PlatformFlag.Platforms at h
    cases hs : buildSets p with
    | none => rw [hs] at h; simp at h
    | some s => exact buildSets_some hs
  refine ⟨hb, ?_⟩
  rw [Platforms_eq hb] at h
  exact (Option.some.inj h).symm

/-! ## The exclusion pass in closed form -/

theorem keep_iff (s : Sets) (x : Platform) :
    keep s x = true ↔
      mapHas s.ignoreOSArch x.String = false ∧
        (mapHas s.includeOSArch x.String = true ∨ componentsOK s x = true) := by
  unfold keep
  cases hi : mapHas s.ignoreOSArch x.String
  · cases hc : mapHas s.includeOSArch x.String
    · simp
    · have := mapHas_pos hc
      simp [this]
  · have := mapHas_pos hi
    simp [this]

theorem mem_pos {α : Type} {a : α} {l : List α} (h : a ∈ l) : l.length > 0 := by
  cases l with
  | nil => simp at h
  | cons b l => simp

theorem componentsOK_iff (s : Sets) (x : Platform) :
    componentsOK s x = true ↔
      x.Arch ∉ s.ignoreArch ∧ x.OS ∉ s.ignoreOS ∧
        (s.includeArch = [] ∨ x.Arch ∈ s.includeArch) ∧
        (s.includeOS = [] ∨ x.OS ∈ s.includeOS) := by
  unfold componentsOK
  by_cases h1 : x.Arch ∈ s.ignoreArch
  · simp [h1, mem_pos h1]
  · by_cases h2 : x.OS ∈ s.ignoreOS
    · simp [h1, h2, mem_pos h2]
    · by_cases h3 : s.includeArch = []
      · by_cases h4 : s.includeOS = []
        · simp [h1, h2, h3, h4]
        · by_cases h5 : x.OS ∈ s.includeOS
          · simp [h1, h2, h3, h5]
          · simp [h1, h2, h3, h4, h5, List.length_pos]
      · by_cases h6 : x.Arch ∈ s.includeArch
        · by_cases h4 : s.includeOS = []
          · simp [h1, h2, h4, h6]
          · by_cases h5 : x.OS ∈ s.includeOS
            · simp [h1, h2, h5, h6]
            · simp [h1, h2, h3, h4, h5, h6, List.length_pos]
        · simp [h1, h2, h3, h6, List.length_pos]

/-! ## The catalog check and the default list -/

theorem mem_supportedOnly {supported pre : List Platform} {x : Platform} :
    x ∈ supportedOnly supported pre ↔
      ∃ y ∈ pre, isSupported supported y = true ∧ x = { y with Default := false } := by
  unfold supportedOnly
  rw [List.mem_filterMap]
  constructor
  · rintro ⟨y, hy, h⟩
    by_cases hs : isSupported supported y = true
    · rw [if_pos hs] at h
      exact ⟨y, hy, hs, (Option.some.inj h).symm⟩
    · rw [if_neg hs] at h; simp at h
  · rintro ⟨y, hy, hs, rfl⟩
    exact ⟨y, hy, by rw [if_pos hs]⟩

theorem isSupported_iff {supported : List Platform} {y : Platform} :
    isSupported supported y = true ↔ ∃ c ∈ supported, y.String = c.String := by
  simp [isSupported]

theorem defaults_eq (all : Bool) (supported : List Platform) :
    defaults all supported =
      (supported.filter (fun v => v.Default || all)).map
        (fun v => { v with Default := false }) := by
  unfold defaults
  induction supported with
  | nil => rfl
  | cons v l ih =>
    cases h : (v.Default || all)
    · simp only [List.filterMap_cons, List.filter_cons, h, ih]
      simp
    · simp only [List.filterMap_cons, List.filter_cons, h, ih]
      simp

theorem String_clear (y : Platform) :
    ({ y with Default := false } : Platform).String = y.String := rfl

/-! ## String forms and pairs -/

theorem split_unique {a b c d : List Char} (h : a ++ '/' :: b = c ++ '/' :: d)
    (hc : '/' ∉ c) (hd : '/' ∉ d) : a = c ∧ b = d := by
  induction a generalizing c with
  | nil =>
    cases c with
    | nil => simpa using h
    | cons x c =>
      simp only [List.nil_append, List.cons_append, List.cons.injEq] at h
      exact absurd (h.1 ▸ List.mem_cons_self _ _) hc
  | cons y a ih =>
    cases c with
    | nil =>
      simp only [List.nil_append, List.cons_append, List.cons.injEq] at h
      exact absurd (h.2 ▸ List.mem_append_right a (List.mem_cons_self _ _)) hd
    | cons x c =>
      simp only [List.cons_append, List.cons.injEq] at h
      have := ih h.2 (fun hm => hc (List.mem_cons_of_mem _ hm))
      exact ⟨by rw [h.1, this.1], this.2⟩

theorem String_data (x : Platform) : x.String.data = x.OS.data ++ '/' :: x.Arch.data := by
  simp [Platform.String, String.data_append]

theorem String_eq_of_pair {x y : Platform} (h1 : x.OS = y.OS) (h2 : x.Arch = y.Arch) :
    x.String = y.String := by
  simp [Platform.String, h1, h2]

theorem pair_of_String_eq {x c : Platform} (h : x.String = c.String)
    (hOS : noSlash c.OS) (hArch : noSlash c.Arch) : x.OS = c.OS ∧ x.Arch = c.Arch := by
  have hd : x.String.data = c.String.data := by rw [h]
  rw [String_data, String_data] at hd
  have := split_unique hd hOS hArch
  exact ⟨String.ext this.1, String.ext this.2⟩

/-! ## The prefilter -/

theorem order_mem {order : PlatformMap → PlatformMap} (ho : IsOrder order) {m : PlatformMap}
    {e : String × Platform} : e ∈ order m ↔ e ∈ m := (ho m).mem_iff

theorem buildPrefilter_incl (order : PlatformMap → PlatformMap) {s : Sets} (p : PlatformFlag)
    (supported : List Platform) (hm : s.includeOSArch.length > 0) :
    ∃ pre, buildPrefilter order s p supported = some pre ∧
      ∀ y ∈ (order s.includeOSArch).map Prod.snd, y ∈ pre := by
  unfold buildPrefilter
  simp only [hm, if_true, Option.getD_some]
  split
  · exact ⟨_, rfl, fun y hy => List.mem_append_left _ hy⟩
  · split
    · exact ⟨_, rfl, fun y hy => List.mem_append_left _ hy⟩
    · exact ⟨_, rfl, fun y hy => hy⟩

theorem mem_resolved_keep {p : PlatformFlag} {order : PlatformMap → PlatformMap}
    {supported : List Platform} {x : Platform} (h : x ∈ resolved p order supported) :
    keep (setsOf p) x = true := by
  unfold resolved at h
  exact (List.mem_filter.1 h).2

theorem mem_resolved_supported {p : PlatformFlag} {order : PlatformMap → PlatformMap}
    {supported : List Platform} {x : Platform} (h : x ∈ resolved p order supported) :
    ∃ c ∈ supported, x.OS = c.OS ∧ x.Arch = c.Arch ∨ x.String = c.String := by
  unfold resolved at h
  have hx := (List.mem_filter.1 h).1
  split at hx
  · obtain ⟨y, _, hs, rfl⟩ := mem_supportedOnly.1 hx
    obtain ⟨c, hc, hyc⟩ := isSupported_iff.1 hs
    exact ⟨c, hc, Or.inr hyc⟩
  · rw [defaults_eq] at hx
    obtain ⟨c, hc, rfl⟩ := List.mem_map.1 hx
    exact ⟨c, (List.mem_filter.1 hc).1, Or.inl ⟨rfl, rfl⟩⟩

theorem ignore_has_iff (p : PlatformFlag) (k : String) :
    mapHas (setsOf p).ignoreOSArch k = true ↔
      ∃ e ∈ p.OSArch, isNegated e.OS = true ∧ (stripMarker e).String = k := by
  show mapHas (insertAll [] (excludeEntries p.OSArch)) k = true ↔ _
  rw [mapHas_insertAll_nil]
  simp only [excludeEntries, List.mem_map, List.mem_filter]
  constructor
  · rintro ⟨v, ⟨e, ⟨he, hn⟩, rfl⟩, hk⟩
    exact ⟨e, he, hn, hk⟩
  · rintro ⟨e, he, hn, hk⟩
    exact ⟨_, ⟨e, ⟨he, hn⟩, rfl⟩, hk⟩

theorem include_has_iff (p : PlatformFlag) (k : String) :
    mapHas (setsOf p).includeOSArch k = true ↔
      ∃ v ∈ p.OSArch, isNegated v.OS = false ∧ v.String = k := by
  show mapHas (insertAll [] (includeEntries p.OSArch)) k = true ↔ _
  rw [mapHas_insertAll_nil]
  simp only [includeEntries, List.mem_filter, Bool.not_eq_true', and_assoc]

theorem include_value {p : PlatformFlag} {e : String × Platform}
    (h : e ∈ (setsOf p).includeOSArch) :
    e.2 ∈ p.OSArch ∧ isNegated e.2.OS = false ∧ e.1 = e.2.String := by
  have h' : e ∈ insertAll [] (includeEntries p.OSArch) := h
  rcases mem_insertAll h' with h0 | ⟨h1, h2⟩
  · simp at h0
  · simp only [includeEntries, List.mem_filter, Bool.not_eq_true'] at h1
    exact ⟨h1.1, h1.2, h2⟩

theorem not_excluded_of_mem (p : PlatformFlag) (order : PlatformMap → PlatformMap)
    (supported r : List Platform) (h : p.Platforms order supported = some r) :
    ∀ x ∈ r, ∀ e ∈ p.OSArch, isNegated e.OS = true → x.String ≠ (stripMarker e).String := by
  obtain ⟨_, rfl⟩ := Platforms_some h
  intro x hx e he hneg heq
  have hk := (keep_iff _ _).1 (mem_resolved_keep hx)
  have : mapHas (setsOf p).ignoreOSArch x.String = true :=
    (ignore_has_iff p _).2 ⟨e, he, hneg, heq.symm⟩
  rw [hk.1] at this
  exact Bool.false_ne_true this

theorem catalog_string_form (p : PlatformFlag) (order : PlatformMap → PlatformMap)
    (supported r : List Platform) (h : p.Platforms order supported = some r) :
    ∀ x ∈ r, ∃ c ∈ supported, x.String = c.String := by
  obtain ⟨_, rfl⟩ := Platforms_some h
  intro x hx
  obtain ⟨c, hc, hxc⟩ := mem_resolved_supported hx
  rcases hxc with hxc | hxc
  · exact ⟨c, hc, String_eq_of_pair hxc.1 hxc.2⟩
  · exact ⟨c, hc, hxc⟩

/-! ## C1 -/

/-- C1. A pair excluded through `p.OSArch` (an entry whose OS begins with
`'!'`, marker stripped) never has its OS/Arch string form in the list
`Platforms` returns, whatever `p.OS`, `p.Arch`, `p.All` and the include
entries of `p.OSArch` are, and whatever order the include map is visited in. -/
theorem excluded_pair_absent (p : PlatformFlag) (order : PlatformMap → PlatformMap)
    (supported r : List Platform) (h : p.Platforms order supported = some r)
    (e : Platform) (he : e ∈ p.OSArch) (hneg : isNegated e.OS = true) :
    ∀ x ∈ r, x.String ≠ (stripMarker e).String :=
  fun x hx => not_excluded_of_mem p order supported r h x hx e he hneg

/-! ## C4 -/

/-- C4. Every element of the list `Platforms` returns has the OS/Arch string
form of some catalog entry (the comparison the code makes); when no OS or Arch
name of the catalog contains `'/'`, its (OS, Arch) pair is the pair of a
catalog entry. -/
theorem output_within_catalog (p : PlatformFlag) (order : PlatformMap → PlatformMap)
    (supported r : List Platform) (h : p.Platforms order supported = some r) :
    ∀ x ∈ r, (∃ c ∈ supported, x.String = c.String) ∧
      ((∀ c ∈ supported, noSlash c.OS ∧ noSlash c.Arch) →
        ∃ c ∈ supported, x.OS = c.OS ∧ x.Arch = c.Arch) := by
  obtain ⟨_, rfl⟩ := Platforms_some h
  intro x hx
  obtain ⟨c, hc, hxc⟩ := mem_resolved_supported hx
  rcases hxc with hxc | hxc
  · exact ⟨⟨c, hc, String_eq_of_pair hxc.1 hxc.2⟩, fun _ => ⟨c, hc, hxc⟩⟩
  · exact ⟨⟨c, hc, hxc⟩, fun hs => ⟨c, hc, pair_of_String_eq hxc (hs c hc).1 (hs c hc).2⟩⟩

/-! ## C2 -/

/-- C2. If `P` is in the catalog, its pair is an include entry of `p.OSArch`
and its string form is not that of an exclude pair, then `Platforms` returns a
list that holds an element with the string form of `P` and `Default` cleared,
whatever `p.OS` and `p.Arch` negate or include; that element is `P` itself
(with `Default` cleared) when the OS and Arch of `P` contain no `'/'`. -/
theorem included_pair_present (p : PlatformFlag) (order : PlatformMap → PlatformMap)
    (supported : List Platform) (ho : IsOrder order) (hb : inBounds p) (P : Platform)
    (hP : P ∈ supported)
    (hinc : ∃ v ∈ p.OSArch, isNegated v.OS = false ∧ v.OS = P.OS ∧ v.Arch = P.Arch)
    (hexc : ∀ e ∈ p.OSArch, isNegated e.OS = true → (stripMarker e).String ≠ P.String) :
    ∃ r, p.Platforms order supported = some r ∧
      (∃ x ∈ r, x.String = P.String ∧ x.Default = false) ∧
      (noSlash P.OS → noSlash P.Arch → (⟨P.OS, P.Arch, false⟩ : Platform) ∈ r) := by
  refine ⟨_, Platforms_eq hb order supported, ?_⟩
  obtain ⟨v, hv, hvn, hvo, hva⟩ := hinc
  have hkey : mapHas (setsOf p).includeOSArch P.String = true :=
    (include_has_iff p _).2 ⟨v, hv, hvn, String_eq_of_pair hvo hva⟩
  obtain ⟨e, he, hek⟩ := mapHas_iff.1 hkey
  obtain ⟨_, _, hes⟩ := include_value he
  have hstr : e.2.String = P.String := by rw [← hes, hek]
  have hlen := mapHas_pos hkey
  obtain ⟨pre, hpre, hsub⟩ := buildPrefilter_incl order p supported hlen
  have hmem : ({ e.2 with Default := false } : Platform) ∈ resolved p order supported := by
    unfold resolved
    rw [hpre]
    refine List.mem_filter.2 ⟨?_, ?_⟩
    · refine mem_supportedOnly.2 ⟨e.2, hsub _ ?_, ?_, rfl⟩
      · exact List.mem_map.2 ⟨e, (order_mem ho).2 he, rfl⟩
      · exact isSupported_iff.2 ⟨P, hP, hstr⟩
    · refine (keep_iff _ _).2 ⟨?_, Or.inl ?_⟩
      · rw [String_clear, hstr]
        cases hi : mapHas (setsOf p).ignoreOSArch P.String
        · rfl
        · obtain ⟨e', he', hn', hs'⟩ := (ignore_has_iff p _).1 hi
          exact absurd hs' (hexc e' he' hn')
      · rw [String_clear, hstr]; exact hkey
  refine ⟨⟨_, hmem, ?_, rfl⟩, ?_⟩
  · rw [String_clear, hstr]
  · intro h1 h2
    have := pair_of_String_eq hstr h1 h2
    rw [← this.1, ← this.2]
    exact hmem

/-! ## Negated tokens -/

theorem isNegated_iff (v : String) : isNegated v = true ↔ v = "!" ++ dropFirst v := by
  unfold isNegated firstByte dropFirst
  constructor
  · intro h
    apply String.ext
    cases hd : v.data with
    | nil => rw [hd] at h; simp at h
    | cons c cs =>
      rw [hd] at h
      simp only [List.head?_cons, beq_iff_eq, Option.some.injEq] at h
      subst h
      simp [String.data_append]
  · intro h
    rw [h]
    simp [String.data_append]

theorem dropFirst_bang (s : String) : dropFirst ("!" ++ s) = s := by
  unfold dropFirst
  apply String.ext
  simp [String.data_append]

theorem mem_negatedKeys (l : List String) (name : String) :
    name ∈ negatedKeys l ↔ ("!" ++ name) ∈ l := by
  unfold negatedKeys
  simp only [List.mem_map, List.mem_filter]
  constructor
  · rintro ⟨v, ⟨hv, hn⟩, rfl⟩
    rw [← (isNegated_iff v).1 hn]; exact hv
  · intro h
    refine ⟨"!" ++ name, ⟨h, ?_⟩, dropFirst_bang name⟩
    rw [isNegated_iff, dropFirst_bang]

theorem plainKeys_eq_nil {l : List String} (h : ∀ v ∈ l, isNegated v = true) :
    plainKeys l = [] := by
  unfold plainKeys
  rw [List.filter_eq_nil_iff]
  intro v hv
  simp [h v hv]

theorem includeEntries_eq_nil {l : List Platform} (h : ∀ v ∈ l, isNegated v.OS = true) :
    includeEntries l = [] := by
  unfold includeEntries
  rw [List.filter_eq_nil_iff]
  intro v hv
  simp [h v hv]

theorem ne_empty_of_isNegated {v : String} (h : isNegated v = true) : v ≠ "" := by
  intro hv; subst hv; exact absurd h (by decide)

theorem isExcludedPair_iff (p : PlatformFlag) (x : Platform) :
    isExcludedPair p x = true ↔ mapHas (setsOf p).ignoreOSArch x.String = true := by
  rw [ignore_has_iff]
  simp [isExcludedPair]

theorem String_of_negated {e : Platform} (h : isNegated e.OS = true) :
    e.String = "!" ++ (stripMarker e).String := by
  have hOS := (isNegated_iff e.OS).1 h
  apply String.ext
  have h1 : e.String.data = e.OS.data ++ '/' :: e.Arch.data := by
    simp [Platform.String, String.data_append]
  have h2 : ("!" ++ (stripMarker e).String).data =
      '!' :: ((dropFirst e.OS).data ++ '/' :: e.Arch.data) := by
    simp [Platform.String, stripMarker, String.data_append]
  have h3 : e.OS.data = '!' :: (dropFirst e.OS).data := by
    have := congrArg String.data hOS
    simpa [String.data_append] using this
  rw [h1, h2, h3]
  rfl

theorem negated_of_String {e x : Platform} (h : e.String = "!" ++ x.String) :
    isNegated e.OS = true ∧ (stripMarker e).String = x.String := by
  have hd := congrArg String.data h
  have h1 : e.String.data = e.OS.data ++ '/' :: e.Arch.data := by
    simp [Platform.String, String.data_append]
  have h2 : ("!" ++ x.String).data = '!' :: x.String.data := by
    simp [String.data_append]
  rw [h1, h2] at hd
  cases hOS : e.OS.data with
  | nil =>
    rw [hOS] at hd
    simp only [List.nil_append, List.cons.injEq] at hd
    exact absurd hd.1 (by decide)
  | cons c cs =>
    rw [hOS] at hd
    simp only [List.cons_append, List.cons.injEq] at hd
    obtain ⟨hc, hrest⟩ := hd
    subst hc
    refine ⟨by simp [isNegated, firstByte, hOS], ?_⟩
    apply String.ext
    have h4 : (stripMarker e).String.data = cs ++ '/' :: e.Arch.data := by
      simp [Platform.String, stripMarker, dropFirst, String.data_append, hOS]
    rw [h4, hrest]

theorem isExcludedPair_eq (p : PlatformFlag) (x : Platform) :
    isExcludedPair p x = excludedByOSArch p x := by
  have hiff : isExcludedPair p x = true ↔ excludedByOSArch p x = true := by
    rw [isExcludedPair_iff, ignore_has_iff]
    simp only [excludedByOSArch, negatedIn, decide_eq_true_eq, List.mem_map]
    constructor
    · rintro ⟨e, he, hn, hs⟩
      refine ⟨e, he, ?_⟩
      show e.String = "!" ++ x.String
      rw [String_of_negated hn, hs]
    · rintro ⟨e, he, hs⟩
      have := negated_of_String (e := e) (x := x) hs
      exact ⟨e, he, this.1, this.2⟩
  cases h1 : isExcludedPair p x <;> cases h2 : excludedByOSArch p x
  · rfl
  · rw [← hiff, h1] at h2; exact absurd h2 (by decide)
  · rw [hiff, h2] at h1; exact absurd h1 (by decide)
  · rfl

/-! ## No include at all: the default list -/

theorem resolved_defaults {p : PlatformFlag} (order : PlatformMap → PlatformMap)
    (supported : List Platform) (hOS : plainKeys p.OS = [])
    (hOSArch : includeEntries p.OSArch = []) :
    resolved p order supported = (defaults p.All supported).filter (keep (setsOf p)) := by
  unfold resolved buildPrefilter
  have h1 : (setsOf p).includeOS = [] := hOS
  have h2 : (setsOf p).includeOSArch = [] := by
    show insertAll [] (includeEntries p.OSArch) = []
    rw [hOSArch]; rfl
  simp [h1, h2]

theorem keep_defaults {p : PlatformFlag} (hOS : plainKeys p.OS = [])
    (hArch : plainKeys p.Arch = []) (hOSArch : includeEntries p.OSArch = [])
    (x : Platform) :
    keep (setsOf p) x =
      (!negatedIn p.OS x.OS && !negatedIn p.Arch x.Arch && !isExcludedPair p x) := by
  have h1 : (setsOf p).includeOS = [] := hOS
  have h3 : (setsOf p).includeArch = [] := hArch
  have h2 : (setsOf p).includeOSArch = [] := by
    show insertAll [] (includeEntries p.OSArch) = []
    rw [hOSArch]; rfl
  have h4 : mapHas (setsOf p).includeOSArch x.String = false := by rw [h2]; rfl
  have hk := keep_iff (setsOf p) x
  have hc := componentsOK_iff (setsOf p) x
  rw [h4] at hk
  simp only [h1, h3, true_or, and_true, Bool.false_eq_true, false_or] at hk hc
  have hA : x.Arch ∈ (setsOf p).ignoreArch ↔ negatedIn p.Arch x.Arch = true := by
    show x.Arch ∈ negatedKeys p.Arch ↔ _
    rw [mem_negatedKeys]; simp [negatedIn]
  have hO : x.OS ∈ (setsOf p).ignoreOS ↔ negatedIn p.OS x.OS = true := by
    show x.OS ∈ negatedKeys p.OS ↔ _
    rw [mem_negatedKeys]; simp [negatedIn]
  have hE := isExcludedPair_iff p x
  rw [hc, hA, hO] at hk
  cases h5 : keep (setsOf p) x
  · rw [h5] at hk
    cases h6 : negatedIn p.OS x.OS <;> cases h7 : negatedIn p.Arch x.Arch <;>
      cases h8 : isExcludedPair p x <;> simp_all
  · rw [h5] at hk
    have := hk.1 rfl
    cases h8 : isExcludedPair p x
    · simp [this.2.1, this.2.2]
    · rw [hE.1 h8] at this; simp at this

/-! ## C5 -/

theorem resolved_include_only {p : PlatformFlag} (order : PlatformMap → PlatformMap)
    (supported : List Platform) (hOS : plainKeys p.OS = [])
    (hm : (setsOf p).includeOSArch.length > 0) :
    resolved p order supported =
      (supportedOnly supported (((order (setsOf p).includeOSArch)).map Prod.snd)).filter
        (keep (setsOf p)) := by
  unfold resolved buildPrefilter
  have h1 : (setsOf p).includeOS = [] := hOS
  simp [h1, hm]

/-- C5 (counterexample). With the include pair linux/amd64 in `p.OSArch` and
the include lists `OS = [darwin]`, `Arch = [amd64]`, the output also holds
darwin/amd64, which is not an include pair of `p.OSArch`. -/
theorem include_pairs_not_exclusive :
    (PlatformFlag.mk ["darwin"] ["amd64"] [⟨"linux", "amd64", false⟩] false).Platforms id
        scenarioCatalog
      = some [⟨"linux", "amd64", false⟩, ⟨"darwin", "amd64", false⟩] ∧
    ¬ ∀ x ∈ [(⟨"linux", "amd64", false⟩ : Platform), ⟨"darwin", "amd64", false⟩],
        ∃ v ∈ [(⟨"linux", "amd64", false⟩ : Platform)],
          isNegated v.OS = false ∧ x.OS = v.OS ∧ x.Arch = v.Arch := by
  decide

/-- C5 (amended). When `p.OSArch` has an include pair and `p.OS` has no plain
token, every element of the list `Platforms` returns is an include pair of
`p.OSArch` with `Default` cleared, has the string form of a catalog entry and
does not have the string form of an exclude pair, whatever `p.Arch` is. -/
theorem include_pairs_only (p : PlatformFlag) (order : PlatformMap → PlatformMap)
    (supported r : List Platform) (ho : IsOrder order)
    (h : p.Platforms order supported = some r)
    (hinc : ∃ v ∈ p.OSArch, isNegated v.OS = false)
    (hOS : ∀ v ∈ p.OS, isNegated v = true) :
    ∀ x ∈ r,
      (∃ v ∈ p.OSArch, isNegated v.OS = false ∧ x = ⟨v.OS, v.Arch, false⟩) ∧
      (∃ c ∈ supported, x.String = c.String) ∧
      (∀ e ∈ p.OSArch, isNegated e.OS = true → x.String ≠ (stripMarker e).String) := by
  obtain ⟨_, hr⟩ := Platforms_some h
  intro x hx
  refine ⟨?_, (catalog_string_form p order supported r h x hx),
    not_excluded_of_mem p order supported r h x hx⟩
  subst hr
  obtain ⟨v, hv, hvn⟩ := hinc
  have hm : (setsOf p).includeOSArch.length > 0 :=
    mapHas_pos ((include_has_iff p _).2 ⟨v, hv, hvn, rfl⟩)
  rw [resolved_include_only order supported (plainKeys_eq_nil hOS) hm] at hx
  obtain ⟨y, hy, _, rfl⟩ := mem_supportedOnly.1 (List.mem_filter.1 hx).1
  obtain ⟨e, he, rfl⟩ := List.mem_map.1 hy
  obtain ⟨h1, h2, _⟩ := include_value ((order_mem ho).1 he)
  exact ⟨e.2, h1, h2, rfl⟩

/-! ## C6 -/

theorem inBounds_of_negated {p : PlatformFlag} (hOS : ∀ v ∈ p.OS, isNegated v = true)
    (hArch : ∀ v ∈ p.Arch, isNegated v = true)
    (hOSArch : ∀ v ∈ p.OSArch, isNegated v.OS = true) : inBounds p :=
  ⟨fun v hv => ne_empty_of_isNegated (hArch v hv),
   fun v hv => ne_empty_of_isNegated (hOS v hv),
   fun v hv => ne_empty_of_isNegated (hOSArch v hv)⟩

theorem Platforms_negations (p : PlatformFlag) (order : PlatformMap → PlatformMap)
    (supported : List Platform) (hOS : ∀ v ∈ p.OS, isNegated v = true)
    (hArch : ∀ v ∈ p.Arch, isNegated v = true)
    (hOSArch : ∀ v ∈ p.OSArch, isNegated v.OS = true) :
    p.Platforms order supported =
      some (((supported.filter (fun v => v.Default || p.All)).map clearDefault).filter
        (fun x => !negatedIn p.OS x.OS && !negatedIn p.Arch x.Arch && !isExcludedPair p x)) := by
  rw [Platforms_eq (inBounds_of_negated hOS hArch hOSArch),
    resolved_defaults order supported (plainKeys_eq_nil hOS) (includeEntries_eq_nil hOSArch),
    defaults_eq]
  congr 1
  apply List.filter_congr
  intro x _
  exact keep_defaults (plainKeys_eq_nil hOS) (plainKeys_eq_nil hArch)
    (includeEntries_eq_nil hOSArch) x

/-- C6 (counterexample). With `p.OS` and `p.Arch` empty and no include pair,
the exclude pair `!linux/amd64` removes the default platform linux/amd64: the
output is empty, not the default-flagged part of the catalog. -/
theorem exclude_pair_removes_default :
    (∀ v ∈ [(⟨"!linux", "amd64", false⟩ : Platform)], isNegated v.OS = true) ∧
    (PlatformFlag.mk [] [] [⟨"!linux", "amd64", false⟩] false).Platforms id
        [⟨"linux", "amd64", true⟩] = some [] ∧
    ([] : List Platform).map pairOf ≠
      ([(⟨"linux", "amd64", true⟩ : Platform)].filter (fun v => v.Default)).map pairOf := by
  decide

/-- C6 (amended). With `p.OS` and `p.Arch` empty and no include pair in
`p.OSArch`, `Platforms` returns the catalog entries with `Default = true` (all
entries when `p.All`), in catalog order and with `Default` cleared, minus the
entries whose string form is that of an exclude pair of `p.OSArch`. -/
theorem defaults_minus_exclude_pairs (p : PlatformFlag) (order : PlatformMap → PlatformMap)
    (supported : List Platform) (hOS : p.OS = []) (hArch : p.Arch = [])
    (hOSArch : ∀ v ∈ p.OSArch, isNegated v.OS = true) :
    p.Platforms order supported =
      some (((supported.filter (fun v => v.Default || p.All)).map clearDefault).filter
        (fun x => !isExcludedPair p x)) := by
  rw [Platforms_negations p order supported (by simp [hOS]) (by simp [hArch]) hOSArch]
  congr 1
  apply List.filter_congr
  intro x _
  simp [negatedIn, hOS, hArch]

/-! ## C7 -/

/-- C7. When every token of `p.OS` and of `p.Arch` is a negation and `p.OSArch`
has no include pair, `Platforms` returns the catalog entries with
`Default = true` (every entry when `p.All`), in catalog order and with
`Default` cleared, minus those whose OS is negated in `p.OS` (the token `!OS`
is in `p.OS`), whose Arch is negated in `p.Arch` (the token `!Arch` is in
`p.Arch`), or whose pair is an exclude pair (the entry `!OS/Arch` is in
`p.OSArch`). -/
theorem only_negations_filter_defaults (p : PlatformFlag)
    (order : PlatformMap → PlatformMap) (supported : List Platform)
    (hOS : ∀ v ∈ p.OS, isNegated v = true) (hArch : ∀ v ∈ p.Arch, isNegated v = true)
    (hOSArch : ∀ v ∈ p.OSArch, isNegated v.OS = true) :
    p.Platforms order supported =
      some (((supported.filter (fun v => v.Default || p.All)).map clearDefault).filter
        (fun x => !negatedIn p.OS x.OS && !negatedIn p.Arch x.Arch &&
          !negatedIn (p.OSArch.map (fun e => e.OS ++ "/" ++ e.Arch)) (x.OS ++ "/" ++ x.Arch))) := by
  rw [Platforms_negations p order supported hOS hArch hOSArch]
  congr 1
  apply List.filter_congr
  intro x _
  rw [isExcludedPair_eq]
  rfl

/-- C7 (witness). Catalog linux/amd64 (default), linux/arm64, darwin/amd64
(default): `Arch = ["!amd64"]` with `All` gives linux/arm64; `OS = ["!darwin"]`
and the exclude pair `!linux/amd64` with `All` give linux/arm64; the exclude
pair `!darwin/amd64` alone gives linux/amd64; `OS = ["!darwin"]` and the
exclude pair `!linux/amd64` without `All` leave nothing. -/
theorem only_negations_filter_defaults_witness :
    (PlatformFlag.mk [] ["!amd64"] [] true).Platforms id scenarioCatalog =
      some [⟨"linux", "arm64", false⟩] ∧
    (PlatformFlag.mk ["!darwin"] [] [⟨"!linux", "amd64", false⟩] true).Platforms id
      scenarioCatalog = some [⟨"linux", "arm64", false⟩] ∧
    (PlatformFlag.mk [] [] [⟨"!darwin", "amd64", false⟩] false).Platforms id
      scenarioCatalog = some [⟨"linux", "amd64", false⟩] ∧
    (PlatformFlag.mk ["!darwin"] [] [⟨"!linux", "amd64", false⟩] false).Platforms id
      scenarioCatalog = some [] :=
  ⟨(only_negations_filter_defaults (PlatformFlag.mk [] ["!amd64"] [] true) id scenarioCatalog
      (by decide) (by decide) (by decide)).trans (by decide),
   (only_negations_filter_defaults
      (PlatformFlag.mk ["!darwin"] [] [⟨"!linux", "amd64", false⟩] true) id scenarioCatalog
      (by decide) (by decide) (by decide)).trans (by decide),
   (only_negations_filter_defaults
      (PlatformFlag.mk [] [] [⟨"!darwin", "amd64", false⟩] false) id scenarioCatalog
      (by decide) (by decide) (by decide)).trans (by decide),
   by decide⟩

/-! ## C8 -/

/-- C8. When `p.OS` and `p.Arch` are empty and `p.OSArch` holds include pairs
only, at least one, none with the string form of a catalog entry, `Platforms`
returns the empty list (it returns, and not the default list), whatever
`p.All` is. -/
theorem unknown_pairs_give_empty (p : PlatformFlag) (order : PlatformMap → PlatformMap)
    (supported : List Platform) (ho : IsOrder order) (hOS : p.OS = []) (hArch : p.Arch = [])
    (hne : p.OSArch ≠ [])
    (hinc : ∀ v ∈ p.OSArch, v.OS ≠ "" ∧ isNegated v.OS = false)
    (hnot : ∀ v ∈ p.OSArch, ∀ c ∈ supported, v.String ≠ c.String) :
    p.Platforms order supported = some [] := by
  have hb : inBounds p := ⟨by simp [hArch], by simp [hOS], fun v hv => (hinc v hv).1⟩
  rw [Platforms_eq hb]
  congr 1
  obtain ⟨v, hv⟩ := List.exists_mem_of_ne_nil _ hne
  have hm : (setsOf p).includeOSArch.length > 0 :=
    mapHas_pos ((include_has_iff p _).2 ⟨v, hv, (hinc v hv).2, rfl⟩)
  rw [resolved_include_only order supported (by simp [hOS, plainKeys]) hm]
  have : supportedOnly supported ((order (setsOf p).includeOSArch).map Prod.snd) = [] := by
    rw [List.eq_nil_iff_forall_not_mem]
    intro x hx
    obtain ⟨y, hy, hs, _⟩ := mem_supportedOnly.1 hx
    obtain ⟨e, he, rfl⟩ := List.mem_map.1 hy
    obtain ⟨h1, _, _⟩ := include_value ((order_mem ho).1 he)
    obtain ⟨c, hc, hyc⟩ := isSupported_iff.1 hs
    exact hnot _ h1 c hc hyc
  rw [this]; rfl

/-! ## C9 -/

theorem mapSet_length (m : PlatformMap) (k : String) (v : Platform) :
    (mapSet m k v).length ≤ m.length + 1 := by
  induction m with
  | nil => simp [mapSet]
  | cons a m ih =>
    obtain ⟨k', v'⟩ := a
    unfold mapSet
    split
    · simp
    · simp only [List.length_cons]; omega

theorem insertAll_length (m : PlatformMap) (l : List Platform) :
    (insertAll m l).length ≤ m.length + l.length := by
  induction l generalizing m with
  | nil => simp [insertAll]
  | cons v l ih =>
    have h1 := ih (mapSet m v.String v)
    have h2 := mapSet_length m v.String v
    show (insertAll (mapSet m v.String v) l).length ≤ _
    simp only [List.length_cons]; omega

theorem order_eq_of_short {order : PlatformMap → PlatformMap} (ho : IsOrder order)
    {m : PlatformMap} (h : m.length ≤ 1) : order m = m := by
  have hp := ho m
  match m, h with
  | [], _ => exact List.perm_nil.1 hp
  | [a], _ => exact List.perm_singleton.1 hp

theorem buildPrefilter_congr {o₁ o₂ : PlatformMap → PlatformMap} {s : Sets}
    (p : PlatformFlag) (supported : List Platform)
    (h : o₁ s.includeOSArch = o₂ s.includeOSArch) :
    buildPrefilter o₁ s p supported = buildPrefilter o₂ s p supported := by
  unfold buildPrefilter
  rw [h]

theorem buildPrefilter_pos (order : PlatformMap → PlatformMap) {s : Sets} (p : PlatformFlag)
    (supported : List Platform) (hm : s.includeOSArch.length > 0) :
    buildPrefilter order s p supported =
      some ((order s.includeOSArch).map Prod.snd ++ listPart s p supported) := by
  unfold buildPrefilter listPart
  simp only [hm, if_true, Option.getD_some]
  split
  · rfl
  · split
    · rfl
    · simp

theorem buildPrefilter_zero (order : PlatformMap → PlatformMap) {s : Sets} (p : PlatformFlag)
    (supported : List Platform) (hm : ¬ s.includeOSArch.length > 0) :
    buildPrefilter order s p supported =
      if s.includeOS.length > 0 then some (listPart s p supported) else none := by
  unfold buildPrefilter listPart
  simp only [hm, if_false, Option.getD_none, List.nil_append]
  by_cases h1 : s.includeOS.length > 0
  · by_cases h2 : s.includeArch.length > 0
    · simp [h1, h2]
    · simp [h1, h2]
  · simp [h1]

theorem resolved_perm {o₁ o₂ : PlatformMap → PlatformMap} (h₁ : IsOrder o₁) (h₂ : IsOrder o₂)
    (p : PlatformFlag) (supported : List Platform) :
    (resolved p o₁ supported).Perm (resolved p o₂ supported) := by
  have hp : ((o₁ (setsOf p).includeOSArch).map Prod.snd).Perm
      ((o₂ (setsOf p).includeOSArch).map Prod.snd) :=
    ((h₁ _).trans (h₂ _).symm).map _
  unfold resolved
  by_cases hm : (setsOf p).includeOSArch.length > 0
  · rw [buildPrefilter_pos o₁ p supported hm, buildPrefilter_pos o₂ p supported hm]
    exact ((hp.append_right _).filterMap _).filter _
  · rw [buildPrefilter_zero o₁ p supported hm, buildPrefilter_zero o₂ p supported hm]

/-- C9 (counterexample). With the include pairs linux/amd64 and darwin/amd64,
visiting the include map in one order or in the reverse order gives two
different lists. -/
theorem result_depends_on_map_order :
    IsOrder id ∧ IsOrder List.reverse ∧
    (PlatformFlag.mk [] [] [⟨"linux", "amd64", false⟩, ⟨"darwin", "amd64", false⟩]
        false).Platforms id scenarioCatalog
      = some [⟨"linux", "amd64", false⟩, ⟨"darwin", "amd64", false⟩] ∧
    (PlatformFlag.mk [] [] [⟨"linux", "amd64", false⟩, ⟨"darwin", "amd64", false⟩]
        false).Platforms List.reverse scenarioCatalog
      = some [⟨"darwin", "amd64", false⟩, ⟨"linux", "amd64", false⟩] :=
  ⟨fun m => List.Perm.refl m, fun m => List.reverse_perm m, by decide, by decide⟩

/-- C9 (amended). For a fixed catalog and a fixed `PlatformFlag`, the elements
of the returned list are determined: two iteration orders of the include map
give lists that are permutations of one another, and the same list when
`p.OSArch` has at most one include entry. -/
theorem result_determined_up_to_order (p : PlatformFlag)
    (o₁ o₂ : PlatformMap → PlatformMap) (supported r₁ r₂ : List Platform)
    (h₁ : IsOrder o₁) (h₂ : IsOrder o₂)
    (hr₁ : p.Platforms o₁ supported = some r₁) (hr₂ : p.Platforms o₂ supported = some r₂) :
    r₁.Perm r₂ ∧ ((includeEntries p.OSArch).length ≤ 1 → r₁ = r₂) := by
  obtain ⟨_, rfl⟩ := Platforms_some hr₁
  obtain ⟨_, rfl⟩ := Platforms_some hr₂
  refine ⟨resolved_perm h₁ h₂ p supported, fun hlen => ?_⟩
  have hm : (setsOf p).includeOSArch.length ≤ 1 := by
    have := insertAll_length [] (includeEntries p.OSArch)
    simp only [List.length_nil, Nat.zero_add] at this
    exact Nat.le_trans this hlen
  unfold resolved
  rw [buildPrefilter_congr p supported
    ((order_eq_of_short h₁ hm).trans (order_eq_of_short h₂ hm).symm)]

/-! ## C3: repeated pairs in the output -/

theorem supportedOnly_eq (supported pre : List Platform) :
    supportedOnly supported pre = (pre.filter (isSupported supported)).map clearDefault := by
  unfold supportedOnly
  induction pre with
  | nil => rfl
  | cons y l ih =>
    cases h : isSupported supported y
    · simp only [List.filterMap_cons, List.filter_cons, h, ih]
      simp
    · simp only [List.filterMap_cons, List.filter_cons, h, ih]
      simp [clearDefault]

theorem pairOf_clearDefault : pairOf ∘ clearDefault = pairOf := rfl

theorem pairs_supportedOnly_sublist (supported pre : List Platform) :
    ((supportedOnly supported pre).map pairOf).Sublist (pre.map pairOf) := by
  rw [supportedOnly_eq, List.map_map, pairOf_clearDefault]
  exact (List.filter_sublist _).map _

theorem pairs_defaults_sublist (all : Bool) (supported : List Platform) :
    ((defaults all supported).map pairOf).Sublist (supported.map pairOf) := by
  rw [defaults_eq]
  show ((List.map clearDefault _).map pairOf).Sublist _
  rw [List.map_map, pairOf_clearDefault]
  exact (List.filter_sublist _).map _

theorem String_eq_of_pairOf {x y : Platform} (h : pairOf x = pairOf y) :
    x.String = y.String := by
  simp only [pairOf, Prod.mk.injEq] at h
  exact String_eq_of_pair h.1 h.2

theorem pairs_values_nodup {m : PlatformMap} (hm : MapOK m) :
    ((m.map Prod.snd).map pairOf).Nodup := by
  have h1 : ((m.map Prod.snd).map Platform.String).Nodup := by
    have : (m.map Prod.snd).map Platform.String = m.map Prod.fst := by
      rw [List.map_map]
      apply List.map_congr_left
      intro e he
      exact (hm.2 e he).symm
    rw [this]; exact hm.1
  have h2 : (m.map Prod.snd).map Platform.String =
      ((m.map Prod.snd).map pairOf).map (fun q => q.1 ++ "/" ++ q.2) := by
    simp only [List.map_map]; rfl
  rw [h2] at h1
  exact List.Nodup.of_map _ h1

theorem mem_pairs_cross {s : Sets} {p : PlatformFlag} {os : String} {q : String × String}
    (h : q ∈ (if os ∈ s.includeOS then
        p.Arch.filterMap (fun arch =>
          if arch ∈ s.includeArch then some (⟨os, arch, false⟩ : Platform) else none)
      else []).map pairOf) :
    q.1 = os ∧ q.2 ∈ p.Arch := by
  obtain ⟨x, hx, rfl⟩ := List.mem_map.1 h
  split at hx
  · obtain ⟨arch, ha, hx⟩ := List.mem_filterMap.1 hx
    split at hx
    · cases hx; exact ⟨rfl, ha⟩
    · simp at hx
  · simp at hx

theorem pairs_cross_nodup (s : Sets) (p : PlatformFlag) (hOS : p.OS.Nodup)
    (hArch : p.Arch.Nodup) : ((crossProduct s p).map pairOf).Nodup := by
  unfold crossProduct
  rw [List.map_flatMap, List.nodup_flatMap]
  constructor
  · intro os _
    split
    · rw [List.map_filterMap]
      refine List.Nodup.filterMap ?_ hArch
      intro a a' b hb hb'
      split at hb
      · split at hb'
        · simp only [Option.map_some', Option.mem_def, Option.some.injEq] at hb hb'
          rw [← hb'] at hb
          simp only [pairOf, Prod.mk.injEq] at hb
          exact hb.2
        · simp at hb'
      · simp at hb
    · simp
  · refine hOS.imp ?_
    intro a b hab
    show List.Disjoint _ _
    intro q hq hq'
    exact hab ((mem_pairs_cross hq).1.symm.trans (mem_pairs_cross hq').1)

theorem pairs_scan_nodup (p : PlatformFlag) (supported : List Platform) (hOS : p.OS.Nodup)
    (hcat : (supported.map pairOf).Nodup) : ((osScan p supported).map pairOf).Nodup := by
  unfold osScan
  rw [List.map_flatMap, List.nodup_flatMap]
  constructor
  · intro os _
    exact hcat.sublist ((List.filter_sublist _).map _)
  · refine hOS.imp ?_
    intro a b hab
    show List.Disjoint _ _
    intro q hq hq'
    obtain ⟨x, hx, rfl⟩ := List.mem_map.1 hq
    obtain ⟨y, hy, hxy⟩ := List.mem_map.1 hq'
    have h1 := (List.mem_filter.1 hx).2
    have h2 := (List.mem_filter.1 hy).2
    simp only [decide_eq_true_eq] at h1 h2
    simp only [pairOf, Prod.mk.injEq] at hxy
    exact hab (h1.symm.trans (hxy.1.symm.trans h2))

theorem mem_pairs_listPart {p : PlatformFlag} {supported : List Platform}
    {q : String × String} (h : q ∈ (listPart (setsOf p) p supported).map pairOf) :
    q.1 ∈ p.OS ∧ (q.2 ∈ p.Arch ∨ plainKeys p.Arch = []) := by
  unfold listPart at h
  split at h
  · unfold crossProduct at h
    rw [List.map_flatMap] at h
    obtain ⟨os, hos, hq⟩ := List.mem_flatMap.1 h
    have := mem_pairs_cross hq
    exact ⟨this.1 ▸ hos, Or.inl this.2⟩
  · rename_i hc
    split at h
    · rename_i hc'
      have hA : plainKeys p.Arch = [] := by
        have : ¬ (setsOf p).includeArch.length > 0 := fun h' => hc ⟨hc', h'⟩
        exact List.length_eq_zero.1 (Nat.eq_zero_of_not_pos this)
      unfold osScan at h
      rw [List.map_flatMap] at h
      obtain ⟨os, hos, hq⟩ := List.mem_flatMap.1 h
      obtain ⟨x, hx, rfl⟩ := List.mem_map.1 hq
      have h1 := (List.mem_filter.1 hx).2
      simp only [decide_eq_true_eq] at h1
      exact ⟨by simp only [pairOf]; rw [h1]; exact hos, Or.inr hA⟩
    · simp at h

theorem pairs_listPart_nodup (p : PlatformFlag) (supported : List Platform)
    (hOS : p.OS.Nodup) (hArch : p.Arch.Nodup) (hcat : (supported.map pairOf).Nodup) :
    ((listPart (setsOf p) p supported).map pairOf).Nodup := by
  unfold listPart
  split
  · exact pairs_cross_nodup _ p hOS hArch
  · split
    · exact pairs_scan_nodup p supported hOS hcat
    · simp

/-- C3. Over a catalog without repeated pairs, `OS = [linux, linux]` with
`Arch = [amd64]` returns linux/amd64 twice, and so does a flag that names
linux/amd64 both through `p.OSArch` and through the include lists: the output
has two elements with the same (OS, Arch) pair. -/
theorem duplicates_in_output :
    (scenarioCatalog.map pairOf).Nodup ∧
    (PlatformFlag.mk ["linux", "linux"] ["amd64"] [] false).Platforms id scenarioCatalog
      = some [⟨"linux", "amd64", false⟩, ⟨"linux", "amd64", false⟩] ∧
    (PlatformFlag.mk ["linux"] ["amd64"] [⟨"linux", "amd64", false⟩] false).Platforms id
        scenarioCatalog
      = some [⟨"linux", "amd64", false⟩, ⟨"linux", "amd64", false⟩] ∧
    ¬ ([(⟨"linux", "amd64", false⟩ : Platform), ⟨"linux", "amd64", false⟩].map pairOf).Nodup := by
  decide

/-- Where the output has no repeated pair: over a catalog without repeated
pairs, when `p.OS` and `p.Arch` repeat no token and no include pair of
`p.OSArch` is also named through the lists (its OS a token of `p.OS` and its
Arch a token of `p.Arch`, or `p.Arch` without plain token), the list
`Platforms` returns has no two elements with the same (OS, Arch) pair. -/
theorem no_duplicate_pairs (p : PlatformFlag) (order : PlatformMap → PlatformMap)
    (supported r : List Platform) (ho : IsOrder order)
    (h : p.Platforms order supported = some r)
    (hcat : (supported.map pairOf).Nodup) (hOS : p.OS.Nodup) (hArch : p.Arch.Nodup)
    (hsep : ∀ v ∈ p.OSArch, isNegated v.OS = false → v.OS ∈ p.OS →
      ¬ (v.Arch ∈ p.Arch ∨ plainKeys p.Arch = [])) :
    (r.map pairOf).Nodup := by
  obtain ⟨_, rfl⟩ := Platforms_some h
  unfold resolved
  refine List.Nodup.sublist ((List.filter_sublist _).map _) ?_
  by_cases hm : (setsOf p).includeOSArch.length > 0
  · rw [buildPrefilter_pos order p supported hm]
    refine List.Nodup.sublist (pairs_supportedOnly_sublist _ _) ?_
    rw [List.map_append]
    refine List.Nodup.append ?_ (pairs_listPart_nodup p supported hOS hArch hcat) ?_
    · have hok : MapOK (setsOf p).includeOSArch := MapOK_insertAll MapOK_nil _
      exact ((((ho _).map Prod.snd).map pairOf).nodup_iff).2 (pairs_values_nodup hok)
    · intro q hq hq'
      obtain ⟨x, hx, rfl⟩ := List.mem_map.1 hq
      obtain ⟨e, he, rfl⟩ := List.mem_map.1 hx
      obtain ⟨h1, h2, _⟩ := include_value ((order_mem ho).1 he)
      have := mem_pairs_listPart hq'
      exact hsep e.2 h1 h2 this.1 this.2
  · rw [buildPrefilter_zero order p supported hm]
    by_cases hl : (setsOf p).includeOS.length > 0
    · rw [if_pos hl]
      exact List.Nodup.sublist (pairs_supportedOnly_sublist _ _)
        (pairs_listPart_nodup p supported hOS hArch hcat)
    · rw [if_neg hl]
      exact List.Nodup.sublist (pairs_defaults_sublist _ _) hcat

/-! ## C10 -/

/-- C10. `envOverride` reads the variable named by upper-casing
`GOX_<OS>_<Arch>_<key>`: when it is unset or empty the target string is
unchanged, and when it is set to a non-empty value the target becomes that
value. -/
theorem envOverride_spec (ToUpper : String → String) (env : Env) (target : String)
    (platform : Platform) (key : String) :
    ((env (ToUpper ("GOX_" ++ platform.OS ++ "_" ++ platform.Arch ++ "_" ++ key)) = none ∨
        env (ToUpper ("GOX_" ++ platform.OS ++ "_" ++ platform.Arch ++ "_" ++ key)) = some "") →
      envOverride ToUpper env target platform key = target) ∧
    (∀ v, env (ToUpper ("GOX_" ++ platform.OS ++ "_" ++ platform.Arch ++ "_" ++ key)) = some v →
      v ≠ "" → envOverride ToUpper env target platform key = v) := by
  unfold envOverride Getenv overrideKey
  constructor
  · rintro (h | h) <;> simp [h]
  · intro v h hv
    simp [h, hv]

/-- C10 (witness). With only `GOX_LINUX_AMD64_LDFLAGS` set, the linker flags of
linux/amd64 become its value and the compiler flags stay as configured. -/
theorem envOverride_spec_witness :
    envOverride asciiUpper scenarioEnv "-X" ⟨"linux", "amd64", false⟩ "LDFLAGS" = "-s -w" ∧
    envOverride asciiUpper scenarioEnv "-X" ⟨"linux", "amd64", false⟩ "GCFLAGS" = "-X" :=
  ⟨(envOverride_spec asciiUpper scenarioEnv "-X" ⟨"linux", "amd64", false⟩ "LDFLAGS").2
      "-s -w" (by decide) (by decide),
   (envOverride_spec asciiUpper scenarioEnv "-X" ⟨"linux", "amd64", false⟩ "GCFLAGS").1
      (Or.inl (by decide))⟩

/-! ## Witnesses -/

/-- C1 (witness). linux/amd64 is both an include pair and an exclude pair, and
linux is an included OS: the output is linux/arm64 alone. -/
theorem excluded_pair_absent_witness :
    (PlatformFlag.mk ["linux"] [] [⟨"linux", "amd64", false⟩, ⟨"!linux", "amd64", false⟩]
        false).Platforms id scenarioCatalog = some [⟨"linux", "arm64", false⟩] ∧
    (⟨"linux", "arm64", false⟩ : Platform).String ≠
      (stripMarker ⟨"!linux", "amd64", false⟩).String :=
  ⟨by decide,
   excluded_pair_absent
    (PlatformFlag.mk ["linux"] [] [⟨"linux", "amd64", false⟩, ⟨"!linux", "amd64", false⟩] false)
    id scenarioCatalog [⟨"linux", "arm64", false⟩] (by decide)
    ⟨"!linux", "amd64", false⟩ (by decide) (by decide) ⟨"linux", "arm64", false⟩ (by decide)⟩

/-- C2 (witness). linux/amd64 is an include pair while linux is negated in
`p.OS` and amd64 in `p.Arch`: it is in the output. -/
theorem included_pair_present_witness :
    ∃ r, (PlatformFlag.mk ["!linux"] ["!amd64"] [⟨"linux", "amd64", false⟩] false).Platforms id
        scenarioCatalog = some r ∧
      (∃ x ∈ r, x.String = "linux/amd64" ∧ x.Default = false) ∧
      (noSlash "linux" → noSlash "amd64" → (⟨"linux", "amd64", false⟩ : Platform) ∈ r) :=
  included_pair_present
    (PlatformFlag.mk ["!linux"] ["!amd64"] [⟨"linux", "amd64", false⟩] false) id
    scenarioCatalog (fun m => List.Perm.refl m) (by decide) ⟨"linux", "amd64", true⟩
    (by decide) ⟨⟨"linux", "amd64", false⟩, by decide, by decide, rfl, rfl⟩ (by decide)

/-- An example without repeated pair: `OS = [linux, darwin]`, `Arch = [amd64]`
and the include pair linux/arm64 give three different pairs. -/
theorem no_duplicate_pairs_witness :
    ([(⟨"linux", "arm64", false⟩ : Platform), ⟨"linux", "amd64", false⟩,
      ⟨"darwin", "amd64", false⟩].map pairOf).Nodup :=
  no_duplicate_pairs
    (PlatformFlag.mk ["linux", "darwin"] ["amd64"] [⟨"linux", "arm64", false⟩] false) id
    scenarioCatalog _ (fun m => List.Perm.refl m) (by decide) (by decide) (by decide)
    (by decide) (by decide)

/-- C4 (witness). Over the scenario catalog the include lists `OS = [linux,
plan9]`, `Arch = [amd64]` give linux/amd64 alone, a catalog pair. -/
theorem output_within_catalog_witness :
    (PlatformFlag.mk ["linux", "plan9"] ["amd64"] [] false).Platforms id scenarioCatalog
      = some [⟨"linux", "amd64", false⟩] ∧
    (∃ c ∈ scenarioCatalog, (⟨"linux", "amd64", false⟩ : Platform).String = c.String) ∧
    ((∀ c ∈ scenarioCatalog, noSlash c.OS ∧ noSlash c.Arch) →
      ∃ c ∈ scenarioCatalog, "linux" = c.OS ∧ "amd64" = c.Arch) :=
  ⟨by decide,
   output_within_catalog (PlatformFlag.mk ["linux", "plan9"] ["amd64"] [] false) id
    scenarioCatalog [⟨"linux", "amd64", false⟩] (by decide) ⟨"linux", "amd64", false⟩
    (by decide)⟩

/-- C5 (witness). The include pairs linux/arm64 and windows/386 with the
include list `Arch = [amd64]`: the output is linux/arm64 alone. -/
theorem include_pairs_only_witness :
    (PlatformFlag.mk [] ["amd64"] [⟨"linux", "arm64", false⟩, ⟨"windows", "386", false⟩]
        false).Platforms id scenarioCatalog = some [⟨"linux", "arm64", false⟩] ∧
    (∃ v ∈ [(⟨"linux", "arm64", false⟩ : Platform), ⟨"windows", "386", false⟩],
      isNegated v.OS = false ∧ (⟨"linux", "arm64", false⟩ : Platform) = ⟨v.OS, v.Arch, false⟩) ∧
    (∃ c ∈ scenarioCatalog, (⟨"linux", "arm64", false⟩ : Platform).String = c.String) ∧
    (∀ e ∈ [(⟨"linux", "arm64", false⟩ : Platform), ⟨"windows", "386", false⟩],
      isNegated e.OS = true →
        (⟨"linux", "arm64", false⟩ : Platform).String ≠ (stripMarker e).String) :=
  ⟨by decide,
   include_pairs_only
    (PlatformFlag.mk [] ["amd64"] [⟨"linux", "arm64", false⟩, ⟨"windows", "386", false⟩] false)
    id scenarioCatalog [⟨"linux", "arm64", false⟩] (fun m => List.Perm.refl m) (by decide)
    ⟨⟨"linux", "arm64", false⟩, by decide, by decide⟩ (by decide)
    ⟨"linux", "arm64", false⟩ (by decide)⟩

/-- C6 (witness). Over the scenario catalog, the request whose only content is
the exclude pair `!darwin/amd64` gives the default list without darwin/amd64:
linux/amd64 alone. -/
theorem defaults_minus_exclude_pairs_witness :
    (PlatformFlag.mk [] [] [⟨"!darwin", "amd64", false⟩] false).Platforms id scenarioCatalog =
      some [⟨"linux", "amd64", false⟩] :=
  (defaults_minus_exclude_pairs (PlatformFlag.mk [] [] [⟨"!darwin", "amd64", false⟩] false) id
    scenarioCatalog rfl rfl (by decide)).trans (by decide)

/-- C8 (witness). The scenario of the spec: the include pair windows/386 is
not in the scenario catalog, and the output is empty with and without `All`. -/
theorem unknown_pairs_give_empty_witness :
    (PlatformFlag.mk [] [] [⟨"windows", "386", false⟩] false).Platforms id scenarioCatalog
      = some [] ∧
    (PlatformFlag.mk [] [] [⟨"windows", "386", false⟩] true).Platforms id scenarioCatalog
      = some [] :=
  ⟨unknown_pairs_give_empty (PlatformFlag.mk [] [] [⟨"windows", "386", false⟩] false) id
      scenarioCatalog (fun m => List.Perm.refl m) rfl rfl (by decide) (by decide) (by decide),
   unknown_pairs_give_empty (PlatformFlag.mk [] [] [⟨"windows", "386", false⟩] true) id
      scenarioCatalog (fun m => List.Perm.refl m) rfl rfl (by decide) (by decide) (by decide)⟩

/-- C9 (witness). The two iteration orders of the counterexample give lists
that are permutations of one another. -/
theorem result_determined_up_to_order_witness :
    [(⟨"linux", "amd64", false⟩ : Platform), ⟨"darwin", "amd64", false⟩].Perm
        [⟨"darwin", "amd64", false⟩, ⟨"linux", "amd64", false⟩] ∧
    ((includeEntries [(⟨"linux", "amd64", false⟩ : Platform),
        ⟨"darwin", "amd64", false⟩]).length ≤ 1 →
      [(⟨"linux", "amd64", false⟩ : Platform), ⟨"darwin", "amd64", false⟩] =
        [⟨"darwin", "amd64", false⟩, ⟨"linux", "amd64", false⟩]) :=
  result_determined_up_to_order
    (PlatformFlag.mk [] [] [⟨"linux", "amd64", false⟩, ⟨"darwin", "amd64", false⟩] false)
    id List.reverse scenarioCatalog _ _ (fun m => List.Perm.refl m)
    (fun m => List.reverse_perm m) (by decide) (by decide)

/-! ## C11 -/

/-- C11. The overlay step writes the shared configuration: with
`GOX_LINUX_AMD64_LDFLAGS` set and `GOX_DARWIN_AMD64_LDFLAGS` unset, after the
overlay step of linux/amd64 and then that of darwin/amd64 the linker flags of
the configuration, the ones the task of darwin/amd64 builds with, are the value
for linux/amd64 and no longer the configured `-X`. -/
theorem overlay_leaks_to_next_platform :
    scenarioEnv (asciiUpper "GOX_darwin_amd64_LDFLAGS") = none ∧
    (overlayStep asciiUpper scenarioEnv
      (overlayStep asciiUpper scenarioEnv scenarioConfig ⟨"linux", "amd64", false⟩)
      ⟨"darwin", "amd64", false⟩).Ldflags = "-s -w" ∧
    scenarioConfig.Ldflags = "-X" := by
  decide

/-! ## C12 -/

theorem wrapInt_eq {x : Int} (h₁ : -2 ^ 63 ≤ x) (h₂ : x < 2 ^ 63) : wrapInt x = x := by
  unfold wrapInt
  have : (x + 2 ^ 63) % 2 ^ 64 = x + 2 ^ 63 :=
    Int.emod_eq_of_lt (by omega) (by omega)
  omega

/-- C12. The concurrency ceiling of `main` is the configured value when that
is at least 2; otherwise it is `NumCPU - 1` when `NumCPU` is not 1 and 1 when
`NumCPU` is 1; whenever `NumCPU ≥ 1` it is at least 1. -/
theorem ceiling_spec (parallel cpus : Int) (hlo : -2 ^ 63 < cpus) (hhi : cpus < 2 ^ 63) :
    (2 ≤ parallel → parallelCeiling parallel cpus = parallel) ∧
    (parallel < 2 → cpus ≠ 1 → parallelCeiling parallel cpus = cpus - 1) ∧
    (parallel < 2 → cpus = 1 → parallelCeiling parallel cpus = 1) ∧
    (1 ≤ cpus → 1 ≤ parallelCeiling parallel cpus) := by
  have hw : wrapInt (cpus - 1) = cpus - 1 := wrapInt_eq (by omega) (by omega)
  unfold parallelCeiling
  refine ⟨?_, ?_, ?_, ?_⟩
  · intro h; rw [if_neg (by omega)]
  · intro h hc; rw [if_pos h, if_pos hc, hw]
  · intro h hc; rw [if_pos h, if_neg (by simpa using hc), hc]
  · intro hc
    split
    · split
      · rw [hw]; omega
      · exact hc
    · omega

/-- C12 (witness). The default `-1` on a machine with 8 CPUs gives 7, on a
machine with one CPU it gives 1, and a configured 4 stays 4. -/
theorem ceiling_spec_witness :
    parallelCeiling (-1) 8 = 7 ∧ parallelCeiling (-1) 1 = 1 ∧ parallelCeiling 4 8 = 4 ∧
      1 ≤ parallelCeiling (-1) 8 :=
  ⟨(ceiling_spec (-1) 8 (by decide) (by decide)).2.1 (by decide) (by decide),
   (ceiling_spec (-1) 1 (by decide) (by decide)).2.2.1 (by decide) rfl,
   (ceiling_spec 4 8 (by decide) (by decide)).1 (by decide),
   (ceiling_spec (-1) 8 (by decide) (by decide)).2.2.2 (by decide)⟩

/-! ## C19 -/

/-- C19. `GoCrossCompile` appends to the environment `GOOS=<OS>`,
`GOARCH=<Arch>` and then exactly one of `CGO_ENABLED=1` and `CGO_ENABLED=0`; it
is `CGO_ENABLED=1` exactly when `cfg.Cgo` is set, or the target is the host
platform and the variable `CGO_ENABLED` is not `"0"`. -/
theorem cgo_enabled_spec (environ : List String) (env : Env) (hostOS hostArch : String)
    (cfg : Config) (platform : Platform) :
    ∃ v, taskEnv environ env hostOS hostArch cfg platform =
        environ ++ ["GOOS=" ++ platform.OS, "GOARCH=" ++ platform.Arch, v] ∧
      (v = "CGO_ENABLED=1" ∨ v = "CGO_ENABLED=0") ∧
      (v = "CGO_ENABLED=1" ↔
        cfg.Cgo = true ∨
          ((hostOS = platform.OS ∧ hostArch = platform.Arch) ∧
            Getenv env "CGO_ENABLED" ≠ "0")) := by
  have hne : ("CGO_ENABLED=0" : String) ≠ "CGO_ENABLED=1" := by decide
  unfold taskEnv
  cases hc : cfg.Cgo
  · by_cases he : Getenv env "CGO_ENABLED" = "0"
    · refine ⟨"CGO_ENABLED=0", ?_, Or.inr rfl, ?_⟩
      · simp [he]
      · simp [he, hne]
    · by_cases hh : hostOS = platform.OS ∧ hostArch = platform.Arch
      · refine ⟨"CGO_ENABLED=1", ?_, Or.inl rfl, ?_⟩
        · simp [he, hh.1, hh.2]
        · simp [he, hh]
      · refine ⟨"CGO_ENABLED=0", ?_, Or.inr rfl, ?_⟩
        · have : (decide (hostOS = platform.OS) && decide (hostArch = platform.Arch)) = false := by
            simpa using hh
          simp only [Bool.not_false, Bool.true_and, he, ne_eq, not_false_eq_true, decide_True,
            if_true, this]
          simp
        · simp [hh, hne]
  · refine ⟨"CGO_ENABLED=1", ?_, Or.inl rfl, ?_⟩
    · simp
    · simp

/-! ## C20 -/

/-- C20. With `go` on the path and the parsed version 2.0, which is greater
than 1.5, `BuildToolchain` does not take the early return of toolchain.go:29:
the test of line 27 asks for `minor ≥ 5` whatever the major version is.  It
refuses exactly when `major ≥ 1` and `minor ≥ 5`. -/
theorem toolchain_gate_misses_major_two :
    toolchainGate true (.ok (2, 0)) = none ∧
    ∀ major minor : Int,
      toolchainGate true (.ok (major, minor)) = some 1 ↔ (major ≥ 1 ∧ minor ≥ 5) := by
  refine ⟨by decide, ?_⟩
  intro major minor
  unfold toolchainGate
  by_cases h : major ≥ 1 ∧ minor ≥ 5
  · simp [h]
  · simp [h]

/-! ## C15 -/

/-- C15. With the default output template, rendered by the template engine as
`Dir_OS_Arch`, the output name of `GoCrossCompile` before `filepath.Abs` is
`base(packagePath)_OS_Arch`, followed by `.exe` exactly when the OS is
`windows`. -/
theorem default_output_name (Render : String → OutputTemplateData → Except String String)
    (Base : String → String) (cfg : Config) (platform : Platform) (packagePath : String)
    (hOutput : cfg.Output = defaultOutput)
    (hRender : ∀ d, Render defaultOutput d = .ok (d.Dir ++ "_" ++ d.OS ++ "_" ++ d.Arch)) :
    renderOutput Render Base cfg platform packagePath =
      .ok (Base packagePath ++ "_" ++ platform.OS ++ "_" ++ platform.Arch ++
        (if platform.OS = "windows" then ".exe" else "")) := by
  unfold renderOutput
  rw [hOutput, hRender]
  by_cases h : platform.OS = "windows"
  · simp [h]
  · simp [h]

/-! ## C15: witness -/

theorem scenarioRender_default (d : OutputTemplateData) :
    scenarioRender defaultOutput d = .ok (d.Dir ++ "_" ++ d.OS ++ "_" ++ d.Arch) := by
  unfold scenarioRender
  congr 1
  apply String.ext
  simp [defaultOutput, fieldRender, beginsWith, String.data_append]

/-- C15 (witness). The entry point `github.com/x/app` built for windows/amd64
with the default template gives `app_windows_amd64.exe`. -/
theorem default_output_name_witness :
    renderOutput scenarioRender scenarioBase { scenarioConfig with Output := defaultOutput }
        ⟨"windows", "amd64", false⟩ "github.com/x/app" = .ok "app_windows_amd64.exe" :=
  (default_output_name scenarioRender scenarioBase { scenarioConfig with Output := defaultOutput }
    ⟨"windows", "amd64", false⟩ "github.com/x/app" rfl scenarioRender_default).trans rfl

/-! ## C16 -/

theorem appendIfMissing_eq (s : List Platform) (v : Platform) :
    appendIfMissing s v = if v ∈ s then s else s ++ [v] := by
  unfold appendIfMissing
  by_cases h : v ∈ s
  · have : s.any (fun existing => decide (existing = v)) = true := by
      simp only [List.any_eq_true, decide_eq_true_eq]
      exact ⟨v, h, rfl⟩
    rw [this, if_pos h]; rfl
  · have : s.any (fun existing => decide (existing = v)) = false := by
      cases hb : s.any (fun existing => decide (existing = v))
      · rfl
      · simp only [List.any_eq_true, decide_eq_true_eq] at hb
        obtain ⟨x, hx, rfl⟩ := hb
        exact absurd hx h
    rw [this, if_neg h]; simp

theorem twoParts_iff (v : List Char) :
    twoParts v = true ↔ ∃ os arch, splitOn '/' v = [os, arch] := by
  unfold twoParts
  simp only [decide_eq_true_eq]
  constructor
  · intro h
    match hs : splitOn '/' v, h with
    | [os, arch], _ => exact ⟨os, arch, rfl⟩
  · rintro ⟨os, arch, h⟩
    rw [h]; rfl

theorem setLoop_ok (ToLower : String → String) (tokens : List (List Char)) (s : List Platform)
    (h : ∀ v ∈ tokens, twoParts v = true) :
    setLoop ToLower tokens s = (addMissing s (tokens.map (tokenPlatform ToLower)), none) := by
  induction tokens generalizing s with
  | nil => rfl
  | cons v rest ih =>
    obtain ⟨os, arch, hv⟩ := (twoParts_iff v).1 (h v (List.mem_cons_self _ _))
    unfold setLoop
    rw [hv]
    simp only
    rw [ih _ (fun w hw => h w (List.mem_cons_of_mem _ hw)), appendIfMissing_eq]
    simp only [List.map_cons, addMissing, List.foldl_cons, tokenPlatform, hv]

theorem setLoop_error (ToLower : String → String) (tokens : List (List Char))
    (s : List Platform) (h : ∃ v ∈ tokens, twoParts v = false) :
    ∃ v ∈ tokens, twoParts v = false ∧
      (setLoop ToLower tokens s).2 = some (syntaxError ⟨v⟩) := by
  induction tokens generalizing s with
  | nil => obtain ⟨v, hv, _⟩ := h; simp at hv
  | cons v rest ih =>
    by_cases hv : twoParts v = true
    · obtain ⟨os, arch, hs⟩ := (twoParts_iff v).1 hv
      have hrest : ∃ w ∈ rest, twoParts w = false := by
        obtain ⟨w, hw, hw2⟩ := h
        rcases List.mem_cons.1 hw with rfl | hw
        · rw [hv] at hw2; exact absurd hw2 (by decide)
        · exact ⟨w, hw, hw2⟩
      obtain ⟨w, hw, hw2, he⟩ := ih (appendIfMissing s ⟨ToLower ⟨os⟩, ToLower ⟨arch⟩, false⟩) hrest
      refine ⟨w, List.mem_cons_of_mem _ hw, hw2, ?_⟩
      unfold setLoop
      rw [hs]
      exact he
    · have hv' : twoParts v = false := by simpa using hv
      refine ⟨v, List.mem_cons_self _ _, hv', ?_⟩
      unfold setLoop
      split
      · rename_i os arch hs
        exact absurd ((twoParts_iff v).2 ⟨os, arch, hs⟩) hv
      · rfl

/-- C16. For a non-empty value, `Set` returns the error `invalid platform
syntax` exactly when some token between single spaces does not have exactly
two parts separated by `/`; when it returns no error, the list afterwards is
the list before followed, in token order, by the lower-cased platform of each
token that is not already present; `Set("")` returns no error and leaves the
list as it is. -/
theorem Set_spec (ToLower : String → String) (s : List Platform) (value : String) :
    (value ≠ "" →
      (((appendPlatformValue.Set ToLower s value).2 ≠ none ↔
          ∃ v ∈ splitOn ' ' value.data, (splitOn '/' v).length ≠ 2) ∧
        (∀ err, (appendPlatformValue.Set ToLower s value).2 = some err →
          ∃ v ∈ splitOn ' ' value.data, (splitOn '/' v).length ≠ 2 ∧
            err = "invalid platform syntax: " ++ String.mk v ++ " should be os/arch") ∧
        ((appendPlatformValue.Set ToLower s value).2 = none →
          (appendPlatformValue.Set ToLower s value).1 =
            addMissing s ((splitOn ' ' value.data).map (tokenPlatform ToLower))))) ∧
    appendPlatformValue.Set ToLower s "" = (s, none) := by
  refine ⟨fun hne => ?_, rfl⟩
  have hset : appendPlatformValue.Set ToLower s value =
      setLoop ToLower (splitOn ' ' value.data) s := by
    unfold appendPlatformValue.Set
    rw [if_neg hne]
  rw [hset]
  by_cases hall : ∀ v ∈ splitOn ' ' value.data, twoParts v = true
  · rw [setLoop_ok ToLower _ s hall]
    refine ⟨⟨fun h => absurd rfl h, ?_⟩, fun err h => by simp at h, fun _ => rfl⟩
    rintro ⟨v, hv, hlen⟩
    have := hall v hv
    simp only [twoParts, decide_eq_true_eq] at this
    exact absurd this hlen
  · have hex : ∃ v ∈ splitOn ' ' value.data, twoParts v = false := by
      by_contra hcon
      apply hall
      intro v hv
      cases htp : twoParts v
      · exact absurd ⟨v, hv, htp⟩ hcon
      · rfl
    obtain ⟨v, hv, hv2, he⟩ := setLoop_error ToLower _ s hex
    have hlen : (splitOn '/' v).length ≠ 2 := by
      simpa [twoParts] using hv2
    refine ⟨⟨fun _ => ⟨v, hv, hlen⟩, fun _ => by rw [he]; simp⟩, ?_, ?_⟩
    · intro err herr
      rw [he] at herr
      exact ⟨v, hv, hlen, (Option.some.inj herr).symm⟩
    · intro hnone
      rw [he] at hnone
      simp at hnone

/-- C16 (witness). `Set` on `Linux/AMD64 darwin/arm64 linux/amd64` over the
list with linux/amd64 adds darwin/arm64 alone, and `Set` on `linux` returns the
error. -/
theorem Set_spec_witness :
    appendPlatformValue.Set asciiLower [⟨"linux", "amd64", false⟩]
        "Linux/AMD64 darwin/arm64 linux/amd64" =
      ([⟨"linux", "amd64", false⟩, ⟨"darwin", "arm64", false⟩], none) ∧
    ((appendPlatformValue.Set asciiLower [⟨"linux", "amd64", false⟩] "linux").2 ≠ none ↔
      ∃ v ∈ splitOn ' ' "linux".data, (splitOn '/' v).length ≠ 2) :=
  ⟨by decide,
   ((Set_spec asciiLower [⟨"linux", "amd64", false⟩] "linux").1 (by decide)).1⟩

/-! ## C17 -/

theorem mem_plainKeys (l : List String) (x : String) :
    x ∈ plainKeys l ↔ x ∈ l ∧ isNegated x = false := by
  simp [plainKeys]

theorem plainKeys_ne_nil {l : List String} (h : ∃ v ∈ l, isNegated v = false) :
    plainKeys l ≠ [] := by
  obtain ⟨v, hv, hn⟩ := h
  exact List.ne_nil_of_mem ((mem_plainKeys l v).2 ⟨hv, hn⟩)

theorem components_of_mem {p : PlatformFlag} {order : PlatformMap → PlatformMap}
    {supported : List Platform} {x : Platform} (hx : x ∈ resolved p order supported)
    (hnot : mapHas (setsOf p).includeOSArch x.String = false) :
    ("!" ++ x.OS) ∉ p.OS ∧ ("!" ++ x.Arch) ∉ p.Arch ∧
      (plainKeys p.OS = [] ∨ x.OS ∈ plainKeys p.OS) ∧
      (plainKeys p.Arch = [] ∨ x.Arch ∈ plainKeys p.Arch) := by
  have hk := (keep_iff _ _).1 (mem_resolved_keep hx)
  rw [hnot] at hk
  have hc := (componentsOK_iff _ _).1 (hk.2.resolve_left (by simp))
  refine ⟨?_, ?_, hc.2.2.2, hc.2.2.1⟩
  · exact fun h => hc.2.1 ((mem_negatedKeys p.OS x.OS).2 h)
  · exact fun h => hc.1 ((mem_negatedKeys p.Arch x.Arch).2 h)

/-- C17. Every element of the list `Platforms` returns whose string form is
not that of an include pair of `p.OSArch` (or, for an element without `'/'` in
its names, whose pair is not an include pair) passes the four component
tests: its OS is not negated in `p.OS`, its Arch is not negated in `p.Arch`,
its OS is a plain token of `p.OS` when there is one, and its Arch is a plain
token of `p.Arch` when there is one. -/
theorem exclusion_pass_components (p : PlatformFlag) (order : PlatformMap → PlatformMap)
    (supported r : List Platform) (h : p.Platforms order supported = some r) (x : Platform)
    (hx : x ∈ r)
    (hnot : (∀ v ∈ p.OSArch, isNegated v.OS = false → v.String ≠ x.String) ∨
      ((noSlash x.OS ∧ noSlash x.Arch) ∧
        ∀ v ∈ p.OSArch, isNegated v.OS = false → ¬ (v.OS = x.OS ∧ v.Arch = x.Arch))) :
    ("!" ++ x.OS) ∉ p.OS ∧ ("!" ++ x.Arch) ∉ p.Arch ∧
      ((∃ v ∈ p.OS, isNegated v = false) → x.OS ∈ p.OS ∧ isNegated x.OS = false) ∧
      ((∃ v ∈ p.Arch, isNegated v = false) → x.Arch ∈ p.Arch ∧ isNegated x.Arch = false) := by
  obtain ⟨_, rfl⟩ := Platforms_some h
  have hstr : ∀ v ∈ p.OSArch, isNegated v.OS = false → v.String ≠ x.String := by
    rcases hnot with hnot | ⟨hs, hnot⟩
    · exact hnot
    · intro v hv hn heq
      exact hnot v hv hn (pair_of_String_eq heq hs.1 hs.2)
  have hfalse : mapHas (setsOf p).includeOSArch x.String = false := by
    cases hm : mapHas (setsOf p).includeOSArch x.String
    · rfl
    · obtain ⟨v, hv, hn, hs⟩ := (include_has_iff p _).1 hm
      exact absurd hs (hstr v hv hn)
  obtain ⟨h1, h2, h3, h4⟩ := components_of_mem hx hfalse
  refine ⟨h1, h2, fun hex => ?_, fun hex => ?_⟩
  · exact (mem_plainKeys _ _).1 (h3.resolve_left (plainKeys_ne_nil hex))
  · exact (mem_plainKeys _ _).1 (h4.resolve_left (plainKeys_ne_nil hex))

/-- C17 (witness). `OS = [linux, !linux, darwin]`: linux is both included and
negated, and the output is darwin/amd64 alone, which passes the four tests. -/
theorem exclusion_pass_components_witness :
    (PlatformFlag.mk ["linux", "!linux", "darwin"] [] [] true).Platforms id scenarioCatalog
      = some [⟨"darwin", "amd64", false⟩] ∧
    ("!" ++ "darwin") ∉ ["linux", "!linux", "darwin"] ∧ ("!" ++ "amd64") ∉ ([] : List String) ∧
      ((∃ v ∈ ["linux", "!linux", "darwin"], isNegated v = false) →
        "darwin" ∈ ["linux", "!linux", "darwin"] ∧ isNegated "darwin" = false) ∧
      ((∃ v ∈ ([] : List String), isNegated v = false) →
        "amd64" ∈ ([] : List String) ∧ isNegated "amd64" = false) :=
  ⟨by decide,
   exclusion_pass_components (PlatformFlag.mk ["linux", "!linux", "darwin"] [] [] true) id
    scenarioCatalog [⟨"darwin", "amd64", false⟩] (by decide) ⟨"darwin", "amd64", false⟩
    (by decide) (Or.inl (by decide))⟩

/-! ## C18 -/

theorem includeOSArch_eq_nil {p : PlatformFlag} (h : ∀ v ∈ p.OSArch, isNegated v.OS = true) :
    (setsOf p).includeOSArch = [] := by
  show insertAll [] (includeEntries p.OSArch) = []
  rw [includeEntries_eq_nil h]; rfl

theorem resolved_lists {p : PlatformFlag} (order : PlatformMap → PlatformMap)
    (supported : List Platform) (hinc : ∀ v ∈ p.OSArch, isNegated v.OS = true)
    (hplain : ∃ v ∈ p.OS, isNegated v = false) :
    resolved p order supported =
      (supportedOnly supported (listPart (setsOf p) p supported)).filter (keep (setsOf p)) := by
  unfold resolved
  have hm : ¬ (setsOf p).includeOSArch.length > 0 := by
    rw [includeOSArch_eq_nil hinc]; simp
  have hl : (setsOf p).includeOS.length > 0 :=
    List.length_pos.2 (plainKeys_ne_nil hplain)
  rw [buildPrefilter_zero order p supported hm, if_pos hl]

theorem mem_crossProduct {p : PlatformFlag} {os arch : String}
    (hos : os ∈ p.OS) (hos' : os ∈ plainKeys p.OS) (harch : arch ∈ p.Arch)
    (harch' : arch ∈ plainKeys p.Arch) :
    (⟨os, arch, false⟩ : Platform) ∈ crossProduct (setsOf p) p := by
  unfold crossProduct
  refine List.mem_flatMap.2 ⟨os, hos, ?_⟩
  have h1 : os ∈ (setsOf p).includeOS := hos'
  rw [if_pos h1]
  refine List.mem_filterMap.2 ⟨arch, harch, ?_⟩
  have h2 : arch ∈ (setsOf p).includeArch := harch'
  rw [if_pos h2]

theorem mem_osScan {p : PlatformFlag} {supported : List Platform} {c : Platform}
    (hc : c ∈ supported) (hos : c.OS ∈ p.OS) : c ∈ osScan p supported := by
  unfold osScan
  exact List.mem_flatMap.2 ⟨c.OS, hos, List.mem_filter.2 ⟨hc, by simp⟩⟩

/-- Over the catalog whose one entry has OS `a` and Arch `b/c`, which is not
a catalog of GOOS and GOARCH names, the include lists `OS = [a/b]`, `Arch = [c]` give the platform with
OS `a/b` and Arch `c`, whose pair is the pair of no catalog entry; and with
`OS = [a/b]` alone the output is empty although the platform with OS `a/b`
and Arch `c` has the string form of the catalog entry. -/
theorem lists_select_by_string_form :
    (PlatformFlag.mk ["a/b"] ["c"] [] false).Platforms id [⟨"a", "b/c", true⟩]
      = some [⟨"a/b", "c", false⟩] ∧
    (¬ ∃ c ∈ [(⟨"a", "b/c", true⟩ : Platform)], c.OS = "a/b" ∧ c.Arch = "c") ∧
    (PlatformFlag.mk ["a/b"] [] [] false).Platforms id [⟨"a", "b/c", true⟩] = some [] ∧
    (⟨"a/b", "c", false⟩ : Platform).String = (⟨"a", "b/c", true⟩ : Platform).String := by
  decide

/-- C18. Over a catalog of GOOS and GOARCH names (no name contains `'/'`),
with no include pair in `p.OSArch` and a plain token in `p.OS`: a pair is in
the list `Platforms` returns exactly when it is the pair of a catalog entry,
its OS is a plain token of `p.OS`, its Arch is a plain token of `p.Arch` or
`p.Arch` has no plain token, its OS and its Arch are not negated (the tokens
`!OS` and `!Arch` are not in `p.OS` and `p.Arch`), and its pair is not an
exclude pair (the entry `!OS/Arch` is not in `p.OSArch`); the `Default` flag of
the catalog entry and `p.All` play no role. -/
theorem lists_select_catalog_pairs (p : PlatformFlag) (order : PlatformMap → PlatformMap)
    (supported : List Platform) (hb : inBounds p)
    (hcat : ∀ c ∈ supported, noSlash c.OS ∧ noSlash c.Arch)
    (hinc : ∀ v ∈ p.OSArch, isNegated v.OS = true)
    (hplain : ∃ v ∈ p.OS, isNegated v = false) :
    ∃ r, p.Platforms order supported = some r ∧
      ∀ os arch : String,
        (∃ x ∈ r, x.OS = os ∧ x.Arch = arch) ↔
          ((∃ c ∈ supported, c.OS = os ∧ c.Arch = arch) ∧
            (os ∈ p.OS ∧ isNegated os = false) ∧
            ((arch ∈ p.Arch ∧ isNegated arch = false) ∨ ∀ v ∈ p.Arch, isNegated v = true) ∧
            ("!" ++ os) ∉ p.OS ∧ ("!" ++ arch) ∉ p.Arch ∧
            ("!" ++ (os ++ "/" ++ arch)) ∉ p.OSArch.map (fun e => e.OS ++ "/" ++ e.Arch)) := by
  refine ⟨_, Platforms_eq hb order supported, fun os arch => ?_⟩
  have hEx : isExcludedPair p ⟨os, arch, false⟩ = false ↔
      ("!" ++ (os ++ "/" ++ arch)) ∉ p.OSArch.map (fun e => e.OS ++ "/" ++ e.Arch) := by
    rw [isExcludedPair_eq]
    simp [excludedByOSArch, negatedIn]
  rw [← hEx]
  have hmap : ∀ k, mapHas (setsOf p).includeOSArch k = false := by
    intro k; rw [includeOSArch_eq_nil hinc]; rfl
  have hArchCases : plainKeys p.Arch = [] ↔ ∀ v ∈ p.Arch, isNegated v = true := by
    constructor
    · intro h v hv
      cases hn : isNegated v
      · have := (mem_plainKeys p.Arch v).2 ⟨hv, hn⟩
        rw [h] at this; simp at this
      · rfl
    · exact plainKeys_eq_nil
  constructor
  · rintro ⟨x, hx, hxo, hxa⟩
    have hxs : x.String = (⟨os, arch, false⟩ : Platform).String := String_eq_of_pair hxo hxa
    obtain ⟨c, hc, hxc⟩ := mem_resolved_supported hx
    have hpair : c.OS = os ∧ c.Arch = arch := by
      rcases hxc with hxc | hxc
      · exact ⟨hxc.1.symm.trans hxo, hxc.2.symm.trans hxa⟩
      · have := pair_of_String_eq hxc (hcat c hc).1 (hcat c hc).2
        exact ⟨this.1.symm.trans hxo, this.2.symm.trans hxa⟩
    obtain ⟨h1, h2, h3, h4⟩ := components_of_mem hx (hmap _)
    rw [hxo] at h1 h3
    rw [hxa] at h2 h4
    have hk := (keep_iff _ _).1 (mem_resolved_keep hx)
    have hex : isExcludedPair p ⟨os, arch, false⟩ = false := by
      cases he : isExcludedPair p ⟨os, arch, false⟩
      · rfl
      · rw [isExcludedPair_iff, ← hxs, hk.1] at he
        exact absurd he (by decide)
    exact ⟨⟨c, hc, hpair⟩, (mem_plainKeys _ _).1 (h3.resolve_left (plainKeys_ne_nil hplain)),
      h4.elim (fun h => Or.inr (hArchCases.1 h)) (fun h => Or.inl ((mem_plainKeys _ _).1 h)),
      h1, h2, hex⟩
  · rintro ⟨⟨c, hc, hco, hca⟩, ⟨hos, hosn⟩, harch, hnos, hnarch, hex⟩
    refine ⟨⟨os, arch, false⟩, ?_, rfl, rfl⟩
    rw [resolved_lists order supported hinc hplain]
    have hcstr : (⟨os, arch, false⟩ : Platform).String = c.String :=
      String_eq_of_pair hco.symm hca.symm
    have hosP : os ∈ plainKeys p.OS := (mem_plainKeys _ _).2 ⟨hos, hosn⟩
    have harchP : plainKeys p.Arch = [] ∨ arch ∈ plainKeys p.Arch :=
      harch.elim (fun h => Or.inr ((mem_plainKeys _ _).2 h)) (fun h => Or.inl (hArchCases.2 h))
    refine List.mem_filter.2 ⟨?_, ?_⟩
    · by_cases hA : plainKeys p.Arch = []
      · refine mem_supportedOnly.2 ⟨c, ?_, isSupported_iff.2 ⟨c, hc, rfl⟩, ?_⟩
        · unfold listPart
          have h1 : ¬ ((setsOf p).includeOS.length > 0 ∧ (setsOf p).includeArch.length > 0) := by
            intro h
            have : (setsOf p).includeArch = [] := hA
            rw [this] at h; simp at h
          have h2 : (setsOf p).includeOS.length > 0 := List.length_pos.2 (List.ne_nil_of_mem hosP)
          rw [if_neg h1, if_pos h2]
          exact mem_osScan hc (hco ▸ hos)
        · rw [← hco, ← hca]
      · have harch' : arch ∈ plainKeys p.Arch := harchP.resolve_left hA
        refine mem_supportedOnly.2 ⟨⟨os, arch, false⟩, ?_, isSupported_iff.2 ⟨c, hc, hcstr⟩, rfl⟩
        unfold listPart
        have h1 : (setsOf p).includeOS.length > 0 ∧ (setsOf p).includeArch.length > 0 :=
          ⟨List.length_pos.2 (List.ne_nil_of_mem hosP), List.length_pos.2 hA⟩
        rw [if_pos h1]
        exact mem_crossProduct hos hosP ((mem_plainKeys _ _).1 harch').1 harch'
    · refine (keep_iff _ _).2 ⟨?_, Or.inr ((componentsOK_iff _ _).2 ⟨?_, ?_, harchP, Or.inr hosP⟩)⟩
      · cases hi : mapHas (setsOf p).ignoreOSArch (⟨os, arch, false⟩ : Platform).String
        · rfl
        · rw [(isExcludedPair_iff p _).2 hi] at hex
          exact absurd hex (by decide)
      · exact fun h => hnarch ((mem_negatedKeys p.Arch arch).1 h)
      · exact fun h => hnos ((mem_negatedKeys p.OS os).1 h)

/-- C18 (witness). `OS = [linux]` with the exclude pair `!linux/amd64` over the
scenario catalog, with and without `All`: the output is linux/arm64, which is
not a default platform, and the pairs of the output are those of the
right-hand side; `OS = [linux, darwin]`, `Arch = [amd64, arm64]` with the
exclude pair `!darwin/amd64` give linux/amd64 and linux/arm64. -/
theorem lists_select_catalog_pairs_witness :
    (PlatformFlag.mk ["linux"] [] [⟨"!linux", "amd64", false⟩] false).Platforms id
      scenarioCatalog = some [⟨"linux", "arm64", false⟩] ∧
    (PlatformFlag.mk ["linux"] [] [⟨"!linux", "amd64", false⟩] true).Platforms id
      scenarioCatalog = some [⟨"linux", "arm64", false⟩] ∧
    (PlatformFlag.mk ["linux", "darwin"] ["amd64", "arm64"] [⟨"!darwin", "amd64", false⟩]
      false).Platforms id scenarioCatalog
      = some [⟨"linux", "amd64", false⟩, ⟨"linux", "arm64", false⟩] ∧
    ∃ r, (PlatformFlag.mk ["linux"] [] [⟨"!linux", "amd64", false⟩] false).Platforms id
        scenarioCatalog = some r ∧
      ∀ os arch : String,
        (∃ x ∈ r, x.OS = os ∧ x.Arch = arch) ↔
          ((∃ c ∈ scenarioCatalog, c.OS = os ∧ c.Arch = arch) ∧
            (os ∈ ["linux"] ∧ isNegated os = false) ∧
            ((arch ∈ ([] : List String) ∧ isNegated arch = false) ∨
              ∀ v ∈ ([] : List String), isNegated v = true) ∧
            ("!" ++ os) ∉ ["linux"] ∧ ("!" ++ arch) ∉ ([] : List String) ∧
            ("!" ++ (os ++ "/" ++ arch)) ∉
              [(⟨"!linux", "amd64", false⟩ : Platform)].map (fun e => e.OS ++ "/" ++ e.Arch)) :=
  ⟨by decide, by decide, by decide,
   lists_select_catalog_pairs (PlatformFlag.mk ["linux"] [] [⟨"!linux", "amd64", false⟩] false)
    id scenarioCatalog (by decide) (by decide) (by decide) (by decide)⟩

/-! ## Lists with one element replaced -/

theorem sum_map_set {α : Type} (f : α → Nat) (l : List α) (i : Nat) (a b : α)
    (h : l[i]? = some a) : ((l.set i b).map f).sum + f a = (l.map f).sum + f b := by
  induction l generalizing i with
  | nil => exact absurd h (by simp)
  | cons x l ih =>
    cases i with
    | zero =>
      simp only [List.getElem?_cons_zero, Option.some.injEq] at h
      subst h
      simp only [List.set_cons_zero, List.map_cons, List.sum_cons]
      omega
    | succ i =>
      simp only [List.getElem?_cons_succ] at h
      have := ih i h
      simp only [List.set_cons_succ, List.map_cons, List.sum_cons]
      omega

theorem mem_set_new {α : Type} (l : List α) (i : Nat) (a b : α) (h : l[i]? = some a) :
    b ∈ l.set i b := by
  induction l generalizing i with
  | nil => exact absurd h (by simp)
  | cons x l ih =>
    cases i with
    | zero => simp
    | succ i =>
      simp only [List.getElem?_cons_succ] at h
      simp only [List.set_cons_succ, List.mem_cons]
      exact Or.inr (ih i h)

theorem mem_set_old {α : Type} (l : List α) (i : Nat) (a b x : α) (h : l[i]? = some a)
    (hx : x ∈ l) (hne : x ≠ a) : x ∈ l.set i b := by
  induction l generalizing i with
  | nil => exact absurd h (by simp)
  | cons y l ih =>
    cases i with
    | zero =>
      simp only [List.getElem?_cons_zero, Option.some.injEq] at h
      subst h
      rcases List.mem_cons.1 hx with hx | hx
      · exact absurd hx hne
      · simp only [List.set_cons_zero, List.mem_cons]; exact Or.inr hx
    | succ i =>
      simp only [List.getElem?_cons_succ] at h
      simp only [List.set_cons_succ, List.mem_cons]
      rcases List.mem_cons.1 hx with hx | hx
      · exact Or.inl hx
      · exact Or.inr (ih i h hx)

theorem filterMap_set_same {α β : Type} (f : α → Option β) (l : List α) (i : Nat) (a b : α)
    (h : l[i]? = some a) (hf : f b = f a) : (l.set i b).filterMap f = l.filterMap f := by
  induction l generalizing i with
  | nil => exact absurd h (by simp)
  | cons x l ih =>
    cases i with
    | zero =>
      simp only [List.getElem?_cons_zero, Option.some.injEq] at h
      subst h
      simp only [List.set_cons_zero, List.filterMap_cons, hf]
    | succ i =>
      simp only [List.getElem?_cons_succ] at h
      simp only [List.set_cons_succ, List.filterMap_cons, ih i h]

theorem filterMap_set_new {α β : Type} (f : α → Option β) (l : List α) (i : Nat) (a b : α)
    (m : β) (h : l[i]? = some a) (ha : f a = none) (hb : f b = some m) :
    (l.filterMap f ++ [m]).Perm ((l.set i b).filterMap f) := by
  induction l generalizing i with
  | nil => exact absurd h (by simp)
  | cons x l ih =>
    cases i with
    | zero =>
      simp only [List.getElem?_cons_zero, Option.some.injEq] at h
      subst h
      simp only [List.set_cons_zero, List.filterMap_cons, ha, hb]
      exact List.perm_append_singleton _ _
    | succ i =>
      simp only [List.getElem?_cons_succ] at h
      simp only [List.set_cons_succ, List.filterMap_cons]
      cases f x with
      | none => exact ih i h
      | some y => exact (ih i h).cons y

theorem mem_of_getElem? {α : Type} {l : List α} {i : Nat} {a : α} (h : l[i]? = some a) :
    a ∈ l := List.mem_iff_getElem?.2 ⟨i, h⟩

/-! ## The steps of the build phase -/

theorem advance_some {w : World} {s s' : BuildState} {i : Nat} (h : advance w s i = some s') :
    ∃ g, s.goroutines[i]? = some g ∧
      ((g.phase = .waiting ∧ s.gate < w.capacity ∧
          s' = { s with
            goroutines := s.goroutines.set i { g with phase := .building }
            gate := s.gate + 1 }) ∨
        (g.phase = .building ∧
          s' = { s with
            goroutines := s.goroutines.set i
              { g with
                phase := if (w.outcome g.idx).isSome then .failed else .built
                calls := g.calls + 1 }
            cfg := overlayStep w.ToUpper w.env s.cfg g.task.platform }) ∨
        (g.phase = .failed ∧ s.lock = none ∧
          s' = { s with
            goroutines := s.goroutines.set i { g with phase := .built }
            lock := some g.idx
            errors := s.errors ++
              (match w.outcome g.idx with
                | some err => [errorLine g.task.platform err]
                | none => []) }) ∨
        (g.phase = .built ∧
          s' = { s with
            goroutines := s.goroutines.set i { g with phase := .finished }
            gate := s.gate - 1
            lock := if s.lock = some g.idx then none else s.lock })) := by
  unfold advance at h
  cases hg : s.goroutines[i]? with
  | none => rw [hg] at h; simp at h
  | some g =>
    rw [hg] at h
    refine ⟨g, rfl, ?_⟩
    cases hp : g.phase with
    | waiting =>
      simp only [hp] at h
      by_cases hc : s.gate < w.capacity
      · rw [if_pos hc] at h
        exact Or.inl ⟨rfl, hc, (Option.some.inj h).symm⟩
      · rw [if_neg hc] at h; simp at h
    | building =>
      simp only [hp] at h
      exact Or.inr (Or.inl ⟨rfl, (Option.some.inj h).symm⟩)
    | failed =>
      simp only [hp] at h
      by_cases hl : s.lock = none
      · rw [if_pos hl] at h
        exact Or.inr (Or.inr (Or.inl ⟨rfl, hl, (Option.some.inj h).symm⟩))
      · rw [if_neg hl] at h; simp at h
    | built =>
      simp only [hp] at h
      exact Or.inr (Or.inr (Or.inr ⟨rfl, (Option.some.inj h).symm⟩))
    | finished =>
      simp only [hp] at h
      simp at h

/-! ## The invariant of the build phase -/

theorem spawn_waiting (k : Nat) (ts : List Task) :
    ∀ g ∈ spawn k ts, g.phase = .waiting ∧ g.calls = 0 := by
  induction ts generalizing k with
  | nil => intro g hg; simp [spawn] at hg
  | cons t ts ih =>
    intro g hg
    simp only [spawn, List.mem_cons] at hg
    rcases hg with rfl | hg
    · exact ⟨rfl, rfl⟩
    · exact ih (k + 1) g hg

theorem sum_eq_zero_of_forall {α : Type} (f : α → Nat) (l : List α) (h : ∀ x ∈ l, f x = 0) :
    (l.map f).sum = 0 := by
  induction l with
  | nil => rfl
  | cons x l ih =>
    simp only [List.map_cons, List.sum_cons, h x (List.mem_cons_self _ _),
      ih (fun y hy => h y (List.mem_cons_of_mem _ hy))]

theorem filterMap_eq_nil_of_forall {α β : Type} (f : α → Option β) (l : List α)
    (h : ∀ x ∈ l, f x = none) : l.filterMap f = [] := by
  induction l with
  | nil => rfl
  | cons x l ih =>
    simp only [List.filterMap_cons, h x (List.mem_cons_self _ _),
      ih (fun y hy => h y (List.mem_cons_of_mem _ hy))]

theorem Reachable_initial (w : World) (cfg : Config) (platforms : List Platform)
    (mainDirs : List String) : Reachable w (initialState cfg platforms mainDirs) := by
  have hw := spawn_waiting 0 (buildTasks platforms mainDirs)
  refine ⟨?_, Nat.zero_le _, ?_, ?_, ?_⟩
  · show 0 = inFlight _
    unfold inFlight
    rw [sum_eq_zero_of_forall]
    intro g hg
    have : g.phase = .waiting := (hw g hg).1
    rw [this]; rfl
  · intro g hg
    have h := hw g hg
    rw [h.2, h.1]; simp
  · intro j hj
    exact absurd hj (by simp [initialState])
  · show ([] : List String).Perm _
    rw [show (initialState cfg platforms mainDirs).goroutines =
      spawn 0 (buildTasks platforms mainDirs) from rfl, filterMap_eq_nil_of_forall]
    intro g hg
    have : g.phase = .waiting := (hw g hg).1
    simp [appended, this]

theorem busy_set (l : List Goroutine) (i : Nat) (g g' : Goroutine) (a b : Nat)
    (h : l[i]? = some g) (ha : g.phase.busy = a) (hb : g'.phase.busy = b) :
    ((l.set i g').map (fun g => g.phase.busy)).sum + a =
      (l.map (fun g => g.phase.busy)).sum + b := by
  subst ha hb
  exact sum_map_set (fun g => g.phase.busy) l i g g' h

theorem Reachable_advance {w : World} {s s' : BuildState} {i : Nat} (hr : Reachable w s)
    (h : advance w s i = some s') : Reachable w s' := by
  obtain ⟨g, hg, hcase⟩ := advance_some h
  have hmem : g ∈ s.goroutines := mem_of_getElem? hg
  have hcalls := hr.calls_eq g hmem
  have hge := hr.gate_eq
  unfold inFlight at hge
  rcases hcase with ⟨hp, hc, rfl⟩ | ⟨hp, rfl⟩ | ⟨hp, hl, rfl⟩ | ⟨hp, rfl⟩
  · -- the send of line 119
    have hsum := busy_set s.goroutines i g { g with phase := .building } 0 1 hg
      (by rw [hp]; rfl) rfl
    refine ⟨?_, ?_, ?_, ?_, ?_⟩
    · show s.gate + 1 = (List.map _ (s.goroutines.set i _)).sum
      omega
    · exact hc
    · intro x hx
      rcases List.mem_or_eq_of_mem_set hx with hx | rfl
      · exact hr.calls_eq x hx
      · simp only [hp, true_or, if_true] at hcalls
        simp [hcalls]
    · intro j hj
      obtain ⟨x, hx, hxi, hxp⟩ := hr.lock_held j hj
      refine ⟨x, mem_set_old _ _ _ _ _ hg hx ?_, hxi, hxp⟩
      intro hxg; rw [hxg, hp] at hxp; exact absurd hxp (by decide)
    · show s.errors.Perm _
      rw [show (List.filterMap (appended w) (s.goroutines.set i { g with phase := .building })) =
        List.filterMap (appended w) s.goroutines from
          filterMap_set_same _ _ _ _ _ hg (by simp [appended, hp])]
      exact hr.errors_perm
  · -- the call of `GoCrossCompile`
    have hbusy : (if (w.outcome g.idx).isSome = true then Phase.failed else Phase.built).busy = 1 := by
      split <;> rfl
    have hsum := busy_set s.goroutines i g
      { g with
        phase := if (w.outcome g.idx).isSome then .failed else .built
        calls := g.calls + 1 } 1 1 hg (by rw [hp]; rfl) hbusy
    refine ⟨?_, hr.gate_le, ?_, ?_, ?_⟩
    · show s.gate = (List.map _ (s.goroutines.set i _)).sum
      omega
    · intro x hx
      rcases List.mem_or_eq_of_mem_set hx with hx | rfl
      · exact hr.calls_eq x hx
      · simp only [hp, or_true, if_true] at hcalls
        simp only [hcalls]
        split <;> simp
    · intro j hj
      obtain ⟨x, hx, hxi, hxp⟩ := hr.lock_held j hj
      refine ⟨x, mem_set_old _ _ _ _ _ hg hx ?_, hxi, hxp⟩
      intro hxg; rw [hxg, hp] at hxp; exact absurd hxp (by decide)
    · show s.errors.Perm _
      rw [filterMap_set_same _ _ _ _ _ hg ?_]
      · exact hr.errors_perm
      · cases ho : w.outcome g.idx <;> simp [appended, hp, ho]
  · -- the lock and the append of lines 129-132
    have hsum := busy_set s.goroutines i g { g with phase := .built } 1 1 hg
      (by rw [hp]; rfl) rfl
    refine ⟨?_, hr.gate_le, ?_, ?_, ?_⟩
    · show s.gate = (List.map _ (s.goroutines.set i _)).sum
      omega
    · intro x hx
      rcases List.mem_or_eq_of_mem_set hx with hx | rfl
      · exact hr.calls_eq x hx
      · simp only [hp] at hcalls
        simp [hcalls]
    · intro j hj
      have hj' : g.idx = j := Option.some.inj hj
      exact ⟨_, mem_set_new _ _ _ _ hg, hj', rfl⟩
    · show (s.errors ++ _).Perm _
      cases ho : w.outcome g.idx with
      | none =>
        simp only [List.append_nil]
        rw [filterMap_set_same _ _ _ _ _ hg (by simp [appended, hp, ho])]
        exact hr.errors_perm
      | some err =>
        simp only
        refine (hr.errors_perm.append_right _).trans ?_
        exact filterMap_set_new _ _ _ _ _ _ hg (by simp [appended, hp]) (by simp [appended, ho])
  · -- the receive of line 134 and the return
    have hsum := busy_set s.goroutines i g { g with phase := .finished } 1 0 hg
      (by rw [hp]; rfl) rfl
    refine ⟨?_, ?_, ?_, ?_, ?_⟩
    · show s.gate - 1 = (List.map _ (s.goroutines.set i _)).sum
      omega
    · show s.gate - 1 ≤ w.capacity
      have := hr.gate_le
      omega
    · intro x hx
      rcases List.mem_or_eq_of_mem_set hx with hx | rfl
      · exact hr.calls_eq x hx
      · simp only [hp] at hcalls
        simp [hcalls]
    · intro j hj
      have hj' : (if s.lock = some g.idx then none else s.lock) = some j := hj
      by_cases hlk : s.lock = some g.idx
      · rw [if_pos hlk] at hj'; simp at hj'
      · rw [if_neg hlk] at hj'
        obtain ⟨x, hx, hxi, hxp⟩ := hr.lock_held j hj'
        refine ⟨x, mem_set_old _ _ _ _ _ hg hx ?_, hxi, hxp⟩
        intro hxg
        rw [hxg] at hxi
        rw [hj', hxi] at hlk
        exact hlk rfl
    · show s.errors.Perm _
      rw [filterMap_set_same _ _ _ _ _ hg (by simp [appended, hp])]
      exact hr.errors_perm

theorem Reachable_run {w : World} {sched : List Nat} {s s' : BuildState} (hr : Reachable w s)
    (h : runSchedule w sched s = some s') : Reachable w s' := by
  induction sched generalizing s with
  | nil => simp only [runSchedule, Option.some.injEq] at h; exact h ▸ hr
  | cons i rest ih =>
    unfold runSchedule at h
    cases ha : advance w s i with
    | none => rw [ha] at h; simp at h
    | some s₁ =>
      rw [ha] at h
      exact ih (Reachable_advance hr ha) h

/-! ## Progress of the build phase -/

theorem rank_set (l : List Goroutine) (i : Nat) (g g' : Goroutine) (a b : Nat)
    (h : l[i]? = some g) (ha : g.phase.rank = a) (hb : g'.phase.rank = b) :
    ((l.set i g').map (fun g => g.phase.rank)).sum + a =
      (l.map (fun g => g.phase.rank)).sum + b := by
  subst ha hb
  exact sum_map_set (fun g => g.phase.rank) l i g g' h

theorem map_set_same {α β : Type} (f : α → β) (l : List α) (i : Nat) (a b : α)
    (h : l[i]? = some a) (hf : f b = f a) : (l.set i b).map f = l.map f := by
  induction l generalizing i with
  | nil => exact absurd h (by simp)
  | cons x l ih =>
    cases i with
    | zero =>
      simp only [List.getElem?_cons_zero, Option.some.injEq] at h
      subst h
      simp only [List.set_cons_zero, List.map_cons, hf]
    | succ i =>
      simp only [List.getElem?_cons_succ] at h
      simp only [List.set_cons_succ, List.map_cons, ih i h]

theorem advance_progress {w : World} {s s' : BuildState} {i : Nat}
    (h : advance w s i = some s') :
    progress s < progress s' ∧ s'.goroutines.map coreOf = s.goroutines.map coreOf := by
  obtain ⟨g, hg, hcase⟩ := advance_some h
  unfold progress
  rcases hcase with ⟨hp, _, rfl⟩ | ⟨hp, rfl⟩ | ⟨hp, _, rfl⟩ | ⟨hp, rfl⟩
  · have := rank_set s.goroutines i g { g with phase := .building } 0 1 hg (by rw [hp]; rfl) rfl
    exact ⟨by show _ < (List.map _ (s.goroutines.set i _)).sum; omega,
      map_set_same coreOf _ _ _ _ hg rfl⟩
  · have hr : ∃ b, (if (w.outcome g.idx).isSome = true then Phase.failed else Phase.built).rank = b
        ∧ 2 ≤ b := by
      split
      · exact ⟨2, rfl, Nat.le_refl _⟩
      · exact ⟨3, rfl, by omega⟩
    obtain ⟨b, hb, hb2⟩ := hr
    have := rank_set s.goroutines i g
      { g with
        phase := if (w.outcome g.idx).isSome then .failed else .built
        calls := g.calls + 1 } 1 b hg (by rw [hp]; rfl) hb
    exact ⟨by show _ < (List.map _ (s.goroutines.set i _)).sum; omega,
      map_set_same coreOf _ _ _ _ hg rfl⟩
  · have := rank_set s.goroutines i g { g with phase := .built } 2 3 hg (by rw [hp]; rfl) rfl
    exact ⟨by show _ < (List.map _ (s.goroutines.set i _)).sum; omega,
      map_set_same coreOf _ _ _ _ hg rfl⟩
  · have := rank_set s.goroutines i g { g with phase := .finished } 3 4 hg
      (by rw [hp]; rfl) rfl
    exact ⟨by show _ < (List.map _ (s.goroutines.set i _)).sum; omega,
      map_set_same coreOf _ _ _ _ hg rfl⟩

theorem run_progress {w : World} {sched : List Nat} {s s' : BuildState}
    (h : runSchedule w sched s = some s') :
    progress s + sched.length ≤ progress s' ∧
      s'.goroutines.map coreOf = s.goroutines.map coreOf := by
  induction sched generalizing s with
  | nil =>
    simp only [runSchedule, Option.some.injEq] at h
    subst h
    exact ⟨Nat.le_refl _, rfl⟩
  | cons i rest ih =>
    unfold runSchedule at h
    cases ha : advance w s i with
    | none => rw [ha] at h; simp at h
    | some s₁ =>
      rw [ha] at h
      have h1 := advance_progress ha
      have h2 := ih h
      refine ⟨?_, h2.2.trans h1.2⟩
      simp only [List.length_cons]
      omega

theorem rank_le (ph : Phase) : ph.rank ≤ 4 := by
  cases ph <;> decide

theorem progress_le (s : BuildState) : progress s ≤ 4 * s.goroutines.length := by
  unfold progress
  induction s.goroutines with
  | nil => simp
  | cons g l ih =>
    have := rank_le g.phase
    simp only [List.map_cons, List.sum_cons, List.length_cons]
    omega

theorem length_of_core {s s' : BuildState}
    (h : s'.goroutines.map coreOf = s.goroutines.map coreOf) :
    s'.goroutines.length = s.goroutines.length := by
  have := congrArg List.length h
  simpa using this

theorem advance_of_phase {w : World} {s : BuildState} {i : Nat} {g : Goroutine}
    (hg : s.goroutines[i]? = some g)
    (h : (g.phase = .waiting ∧ s.gate < w.capacity) ∨ g.phase = .building ∨
      (g.phase = .failed ∧ s.lock = none) ∨ g.phase = .built) :
    ∃ s', advance w s i = some s' := by
  unfold advance
  rw [hg]
  rcases h with ⟨hp, hc⟩ | hp | ⟨hp, hl⟩ | hp
  · simp only [hp, if_pos hc]; exact ⟨_, rfl⟩
  · simp only [hp]; exact ⟨_, rfl⟩
  · simp only [hp, if_pos hl]; exact ⟨_, rfl⟩
  · simp only [hp]; exact ⟨_, rfl⟩

/-- No deadlock: with room for one task in the gate, some goroutine can move
as long as one has not returned. -/
theorem can_advance {w : World} {s : BuildState} (hr : Reachable w s)
    (hcap : 1 ≤ w.capacity) (hnf : allFinished s = false) :
    ∃ i s', advance w s i = some s' := by
  by_cases h1 : ∃ g ∈ s.goroutines, g.phase = .built
  · obtain ⟨g, hg, hp⟩ := h1
    obtain ⟨i, hi⟩ := List.getElem?_of_mem hg
    exact ⟨i, advance_of_phase hi (Or.inr (Or.inr (Or.inr hp)))⟩
  · have hlock : s.lock = none := by
      cases hl : s.lock with
      | none => rfl
      | some j =>
        obtain ⟨g, hg, _, hp⟩ := hr.lock_held j hl
        exact absurd ⟨g, hg, hp⟩ h1
    by_cases h2 : ∃ g ∈ s.goroutines, g.phase = .failed
    · obtain ⟨g, hg, hp⟩ := h2
      obtain ⟨i, hi⟩ := List.getElem?_of_mem hg
      exact ⟨i, advance_of_phase hi (Or.inr (Or.inr (Or.inl ⟨hp, hlock⟩)))⟩
    · by_cases h3 : ∃ g ∈ s.goroutines, g.phase = .building
      · obtain ⟨g, hg, hp⟩ := h3
        obtain ⟨i, hi⟩ := List.getElem?_of_mem hg
        exact ⟨i, advance_of_phase hi (Or.inr (Or.inl hp))⟩
      · have hgate : s.gate = 0 := by
          rw [hr.gate_eq]
          unfold inFlight
          apply sum_eq_zero_of_forall
          intro g hg
          cases hp : g.phase with
          | waiting => rfl
          | finished => rfl
          | building => exact absurd ⟨g, hg, hp⟩ h3
          | failed => exact absurd ⟨g, hg, hp⟩ h2
          | built => exact absurd ⟨g, hg, hp⟩ h1
        have hex : ∃ g ∈ s.goroutines, g.phase ≠ .finished := by
          unfold allFinished at hnf
          by_contra hcon
          have : s.goroutines.all (fun g => decide (g.phase = .finished)) = true := by
            rw [List.all_eq_true]
            intro g hg
            by_contra hne
            exact hcon ⟨g, hg, by simpa using hne⟩
          rw [this] at hnf
          exact absurd hnf (by decide)
        obtain ⟨g, hg, hne⟩ := hex
        obtain ⟨i, hi⟩ := List.getElem?_of_mem hg
        have hp : g.phase = .waiting := by
          cases hp : g.phase with
          | waiting => rfl
          | finished => exact absurd hp hne
          | building => exact absurd ⟨g, hg, hp⟩ h3
          | failed => exact absurd ⟨g, hg, hp⟩ h2
          | built => exact absurd ⟨g, hg, hp⟩ h1
        exact ⟨i, advance_of_phase hi (Or.inl ⟨hp, by omega⟩)⟩

/-- Every state of the build phase can be run to the end. -/
theorem exists_complete_run {w : World} (hcap : 1 ≤ w.capacity) (n : Nat) :
    ∀ s, Reachable w s → 4 * s.goroutines.length - progress s ≤ n →
      ∃ sched s', runSchedule w sched s = some s' ∧ allFinished s' = true := by
  induction n with
  | zero =>
    intro s hr hn
    cases hf : allFinished s with
    | true => exact ⟨[], s, rfl, hf⟩
    | false =>
      obtain ⟨i, s₁, ha⟩ := can_advance hr hcap hf
      have h1 := advance_progress ha
      have h2 := progress_le s₁
      rw [length_of_core h1.2] at h2
      omega
  | succ n ih =>
    intro s hr hn
    cases hf : allFinished s with
    | true => exact ⟨[], s, rfl, hf⟩
    | false =>
      obtain ⟨i, s₁, ha⟩ := can_advance hr hcap hf
      have h1 := advance_progress ha
      have h2 := progress_le s₁
      have hlen := length_of_core h1.2
      obtain ⟨sched, s', hrun, hfin⟩ := ih s₁ (Reachable_advance hr ha) (by rw [hlen]; omega)
      refine ⟨i :: sched, s', ?_, hfin⟩
      unfold runSchedule
      rw [ha]
      exact hrun

/-! ## The end of the build phase -/

theorem buildTasks_length (platforms : List Platform) (mainDirs : List String) :
    (buildTasks platforms mainDirs).length = platforms.length * mainDirs.length := by
  unfold buildTasks
  induction platforms with
  | nil => simp
  | cons p ps ih =>
    simp only [List.flatMap_cons, List.length_append, List.length_map, ih, List.length_cons]
    rw [Nat.succ_mul]; omega

theorem buildTasks_getElem? (platforms : List Platform) (mainDirs : List String) (i j : Nat)
    (platform : Platform) (path : String) (hi : platforms[i]? = some platform)
    (hj : mainDirs[j]? = some path) :
    (buildTasks platforms mainDirs)[i * mainDirs.length + j]? = some ⟨platform, path⟩ := by
  have hjlt : j < mainDirs.length := (List.getElem?_eq_some.1 hj).1
  induction platforms generalizing i with
  | nil => simp at hi
  | cons p ps ih =>
    have hcons : buildTasks (p :: ps) mainDirs =
        mainDirs.map (fun path => (⟨p, path⟩ : Task)) ++ buildTasks ps mainDirs := by
      simp [buildTasks]
    rw [hcons]
    cases i with
    | zero =>
      simp only [List.getElem?_cons_zero, Option.some.injEq] at hi
      subst hi
      rw [Nat.zero_mul, Nat.zero_add, List.getElem?_append_left (by simpa using hjlt),
        List.getElem?_map, hj]
      rfl
    | succ i =>
      simp only [List.getElem?_cons_succ] at hi
      have hidx : (i + 1) * mainDirs.length + j =
          (i * mainDirs.length + j) + (mainDirs.map (fun path => (⟨p, path⟩ : Task))).length := by
        rw [List.length_map, Nat.succ_mul]; omega
      rw [hidx, List.getElem?_append_right (Nat.le_add_left _ _), Nat.add_sub_cancel]
      exact ih i hi

theorem spawn_length (k : Nat) (ts : List Task) : (spawn k ts).length = ts.length := by
  induction ts generalizing k with
  | nil => rfl
  | cons t ts ih => simp only [spawn, List.length_cons, ih]

theorem spawn_tasks (k : Nat) (ts : List Task) : (spawn k ts).map (fun g => g.task) = ts := by
  induction ts generalizing k with
  | nil => rfl
  | cons t ts ih => simp only [spawn, List.map_cons, ih]

theorem spawn_failures (w : World) (k : Nat) (ts : List Task) :
    ((spawn k ts).filterMap (fun g => lineOf w (coreOf g))).length =
      ((List.range' k ts.length).filter (fun i => (w.outcome i).isSome)).length := by
  induction ts generalizing k with
  | nil => rfl
  | cons t ts ih =>
    have hrec := ih (k + 1)
    cases ho : w.outcome k with
    | none =>
      have h1 : lineOf w (coreOf ⟨k, t, .waiting, 0⟩) = none := by simp [lineOf, coreOf, ho]
      simp only [spawn, List.length_cons, List.range'_succ, List.filterMap_cons,
        List.filter_cons, h1, ho, Option.isSome_none]
      exact hrec
    | some err =>
      have h1 : lineOf w (coreOf ⟨k, t, .waiting, 0⟩) = some (errorLine t.platform err) := by
        simp [lineOf, coreOf, ho]
      simp only [spawn, List.length_cons, List.range'_succ, List.filterMap_cons,
        List.filter_cons, h1, ho, Option.isSome_some, if_true]
      rw [hrec]

theorem failureLines_length (w : World) (platforms : List Platform) (mainDirs : List String) :
    (failureLines w platforms mainDirs).length =
      failureCount w (platforms.length * mainDirs.length) := by
  unfold failureLines failureCount
  rw [← buildTasks_length, List.range_eq_range']
  exact spawn_failures w 0 _

theorem appended_finished (w : World) (l : List Goroutine)
    (h : ∀ g ∈ l, g.phase = .finished) :
    l.filterMap (appended w) = (l.map coreOf).filterMap (lineOf w) := by
  induction l with
  | nil => rfl
  | cons g l ih =>
    have hg : appended w g = lineOf w (coreOf g) := by
      simp [appended, h g (List.mem_cons_self _ _), lineOf, coreOf]
    simp only [List.filterMap_cons, List.map_cons, hg,
      ih (fun x hx => h x (List.mem_cons_of_mem _ hx))]

theorem failureLines_eq (w : World) (cfg : Config) (platforms : List Platform)
    (mainDirs : List String) :
    failureLines w platforms mainDirs =
      ((initialState cfg platforms mainDirs).goroutines.map coreOf).filterMap
        (lineOf w) := by
  unfold failureLines
  rw [List.filterMap_map]
  rfl

theorem allFinished_iff (s : BuildState) :
    allFinished s = true ↔ ∀ g ∈ s.goroutines, g.phase = .finished := by
  simp [allFinished]

theorem final_errors {w : World} {cfg : Config} {platforms : List Platform}
    {mainDirs : List String} {sched : List Nat} {s : BuildState}
    (h : runSchedule w sched (initialState cfg platforms mainDirs) = some s)
    (hf : allFinished s = true) : s.errors.Perm (failureLines w platforms mainDirs) := by
  have hr := Reachable_run (Reachable_initial w cfg platforms mainDirs) h
  have hcore := (run_progress h).2
  have := hr.errors_perm
  rw [appended_finished w _ ((allFinished_iff s).1 hf), hcore] at this
  rw [failureLines_eq w cfg]
  exact this

/-! ## C13 -/

/-- C13. For every list of platforms, every list of entry points and every
assignment of success or failure to the calls of `GoCrossCompile`: the build
phase can be run to the end (with room for one task in the gate), and
whenever every goroutine has returned the list `errors` holds exactly one
entry for each failing call (it is a rearrangement of these entries, `K` of
them for `K` failing calls) and the value returned is 1 if `K > 0` and 0 if
`K = 0`. -/
theorem failure_aggregation (w : World) (cfg : Config) (platforms : List Platform)
    (mainDirs : List String) :
    (1 ≤ w.capacity →
      ∃ sched s, runSchedule w sched (initialState cfg platforms mainDirs) = some s ∧
        allFinished s = true) ∧
    ∀ sched s, runSchedule w sched (initialState cfg platforms mainDirs) = some s →
      allFinished s = true →
        s.errors.Perm (failureLines w platforms mainDirs) ∧
        s.errors.length = failureCount w (platforms.length * mainDirs.length) ∧
        exitStatus s.errors =
          if failureCount w (platforms.length * mainDirs.length) > 0 then 1 else 0 := by
  refine ⟨fun hcap => ?_, fun sched s h hf => ?_⟩
  · exact exists_complete_run hcap _ _ (Reachable_initial w cfg platforms mainDirs)
      (Nat.le_refl _)
  · have hp := final_errors h hf
    have hlen : s.errors.length = failureCount w (platforms.length * mainDirs.length) := by
      rw [hp.length_eq, failureLines_length]
    refine ⟨hp, hlen, ?_⟩
    unfold exitStatus
    rw [hlen]

/-! ## C14 -/

/-- C14. `main` starts one goroutine for each pair of the cross product of the
platforms and the entry points, `N x M` of them, the task of platform `i` and
entry point `j` being number `i x M + j`; in every state of the build
phase the tasks are these, at most `capacity` goroutines are between
acquiring and releasing the gate, and no goroutine has called
`GoCrossCompile` more than once; a schedule has at most `4 x N x M` steps; when
every goroutine has returned, each has called `GoCrossCompile` exactly once;
and with room for one task in the gate some goroutine can move as long as one
has not returned, so that the build phase can be run to the end. -/
theorem bounded_build_phase (w : World) (cfg : Config) (platforms : List Platform)
    (mainDirs : List String) :
    (buildTasks platforms mainDirs).length = platforms.length * mainDirs.length ∧
    (∀ i j platform path, platforms[i]? = some platform → mainDirs[j]? = some path →
      (buildTasks platforms mainDirs)[i * mainDirs.length + j]? = some ⟨platform, path⟩) ∧
    (∀ sched s, runSchedule w sched (initialState cfg platforms mainDirs) = some s →
      s.goroutines.map (fun g => g.task) = buildTasks platforms mainDirs ∧
      inFlight s ≤ w.capacity ∧
      (∀ g ∈ s.goroutines, g.calls ≤ 1) ∧
      sched.length ≤ 4 * (platforms.length * mainDirs.length) ∧
      (allFinished s = true → ∀ g ∈ s.goroutines, g.calls = 1) ∧
      (1 ≤ w.capacity → allFinished s = false → ∃ i s', advance w s i = some s')) ∧
    (1 ≤ w.capacity →
      ∃ sched s, runSchedule w sched (initialState cfg platforms mainDirs) = some s ∧
        allFinished s = true) := by
  refine ⟨buildTasks_length platforms mainDirs, buildTasks_getElem? platforms mainDirs,
    fun sched s h => ?_, fun hcap => ?_⟩
  · have hr := Reachable_run (Reachable_initial w cfg platforms mainDirs) h
    have hprog := run_progress h
    have hlen : s.goroutines.length = platforms.length * mainDirs.length := by
      rw [length_of_core hprog.2]
      show (spawn 0 (buildTasks platforms mainDirs)).length = _
      rw [spawn_length, buildTasks_length]
    refine ⟨?_, ?_, ?_, ?_, ?_, ?_⟩
    · have : s.goroutines.map (fun g => g.task) =
          (s.goroutines.map coreOf).map Prod.snd := by
        rw [List.map_map]; rfl
      rw [this, hprog.2, List.map_map]
      exact spawn_tasks 0 _
    · rw [← hr.gate_eq]; exact hr.gate_le
    · intro g hg
      rw [hr.calls_eq g hg]
      split <;> omega
    · have h1 := progress_le s
      rw [hlen] at h1
      omega
    · intro hf g hg
      rw [hr.calls_eq g hg, (allFinished_iff s).1 hf g hg]
      simp
    · intro hcap hnf
      exact can_advance hr hcap hnf
  · exact exists_complete_run hcap _ _ (Reachable_initial w cfg platforms mainDirs)
      (Nat.le_refl _)

theorem scenarioRun_isSome : scenarioRun.isSome = true := rfl

/-- C13 (witness). Two entry points for linux/amd64, the second call failing:
at the end `errors` holds the one entry of the failing call and the value
returned is 1. -/
theorem failure_aggregation_witness :
    ∃ s, scenarioRun = some s ∧ allFinished s = true ∧
      s.errors = ["linux/amd64 error: exit status 2"] ∧
      s.errors.Perm (failureLines scenarioWorld [⟨"linux", "amd64", false⟩] ["a", "b"]) ∧
      s.errors.length = failureCount scenarioWorld (1 * 2) ∧
      exitStatus s.errors = if failureCount scenarioWorld (1 * 2) > 0 then 1 else 0 :=
  ⟨scenarioRun.get scenarioRun_isSome, (Option.some_get scenarioRun_isSome).symm, rfl, rfl,
    (failure_aggregation scenarioWorld scenarioConfig [⟨"linux", "amd64", false⟩]
      ["a", "b"]).2 [0, 1, 0, 1, 1, 0, 1] (scenarioRun.get scenarioRun_isSome) (Option.some_get scenarioRun_isSome).symm rfl⟩

/-- C14 (witness). In the same run the gate, of capacity 2, never holds more
than two tasks, the schedule has 7 steps and each task is built once. -/
theorem bounded_build_phase_witness :
    ∃ s, scenarioRun = some s ∧
      s.goroutines.map (fun g => g.calls) = [1, 1] ∧
      s.goroutines.map (fun g => g.task) = buildTasks [⟨"linux", "amd64", false⟩] ["a", "b"] ∧
      inFlight s ≤ scenarioWorld.capacity ∧
      (∀ g ∈ s.goroutines, g.calls ≤ 1) ∧
      [0, 1, 0, 1, 1, 0, 1].length ≤ 4 * (1 * 2) ∧
      (allFinished s = true → ∀ g ∈ s.goroutines, g.calls = 1) ∧
      (1 ≤ scenarioWorld.capacity → allFinished s = false →
        ∃ i s', advance scenarioWorld s i = some s') :=
  ⟨scenarioRun.get scenarioRun_isSome, (Option.some_get scenarioRun_isSome).symm, rfl,
    (bounded_build_phase scenarioWorld scenarioConfig [⟨"linux", "amd64", false⟩]
      ["a", "b"]).2.2.1 [0, 1, 0, 1, 1, 0, 1] (scenarioRun.get scenarioRun_isSome) (Option.some_get scenarioRun_isSome).symm⟩

/-! ## C21 -/

theorem keep_arch_only {p : PlatformFlag} (hOS : plainKeys p.OS = [])
    (hArch : plainKeys p.Arch ≠ []) (hOSArch : includeEntries p.OSArch = []) (x : Platform) :
    keep (setsOf p) x =
      (decide (x.Arch ∈ p.Arch) && !isNegated x.Arch && !negatedIn p.OS x.OS &&
        !negatedIn p.Arch x.Arch && !isExcludedPair p x) := by
  have h1 : (setsOf p).includeOS = [] := hOS
  have h3 : (setsOf p).includeArch = plainKeys p.Arch := rfl
  have h2 : (setsOf p).includeOSArch = [] := by
    show insertAll [] (includeEntries p.OSArch) = []
    rw [hOSArch]; rfl
  have h4 : mapHas (setsOf p).includeOSArch x.String = false := by rw [h2]; rfl
  have hk := keep_iff (setsOf p) x
  have hc := componentsOK_iff (setsOf p) x
  rw [h4] at hk
  simp only [h1, h3, hArch, true_or, and_true, Bool.false_eq_true, false_or] at hk hc
  have hA : x.Arch ∈ (setsOf p).ignoreArch ↔ negatedIn p.Arch x.Arch = true := by
    show x.Arch ∈ negatedKeys p.Arch ↔ _
    rw [mem_negatedKeys]; simp [negatedIn]
  have hO : x.OS ∈ (setsOf p).ignoreOS ↔ negatedIn p.OS x.OS = true := by
    show x.OS ∈ negatedKeys p.OS ↔ _
    rw [mem_negatedKeys]; simp [negatedIn]
  have hE := isExcludedPair_iff p x
  have hP := mem_plainKeys p.Arch x.Arch
  rw [hc, hA, hO, hP] at hk
  cases h5 : keep (setsOf p) x
  · rw [h5] at hk
    cases h6 : negatedIn p.OS x.OS <;> cases h7 : negatedIn p.Arch x.Arch <;>
      cases h8 : isExcludedPair p x <;> cases h9 : isNegated x.Arch <;>
      by_cases h10 : x.Arch ∈ p.Arch <;> simp_all
  · rw [h5] at hk
    have := hk.1 rfl
    cases h8 : isExcludedPair p x
    · simp [this.2.1, this.2.2.1, this.2.2.2.1, this.2.2.2.2]
    · rw [hE.1 h8] at this; simp at this

/-- C21. When `p.Arch` has a plain token, `p.OS` has none and `p.OSArch` has no
include pair, `Platforms` returns the catalog entries with `Default = true`
(every entry when `p.All`), in catalog order and with `Default` cleared, whose
Arch is a plain token of `p.Arch` and that are not removed by a negated OS
(the token `!OS` is in `p.OS`), a negated Arch (the token `!Arch` is in
`p.Arch`) or an exclude pair (the entry `!OS/Arch` is in `p.OSArch`); without
`p.All` every element comes from a catalog entry with `Default = true`. -/
theorem arch_only_filters_defaults (p : PlatformFlag) (order : PlatformMap → PlatformMap)
    (supported : List Platform)
    (hArch : ∀ v ∈ p.Arch, v ≠ "") (hplain : ∃ v ∈ p.Arch, isNegated v = false)
    (hOS : ∀ v ∈ p.OS, isNegated v = true)
    (hOSArch : ∀ v ∈ p.OSArch, isNegated v.OS = true) :
    p.Platforms order supported =
      some (((supported.filter (fun v => v.Default || p.All)).map clearDefault).filter
        (fun x => decide (x.Arch ∈ p.Arch) && !isNegated x.Arch && !negatedIn p.OS x.OS &&
          !negatedIn p.Arch x.Arch &&
          !negatedIn (p.OSArch.map (fun e => e.OS ++ "/" ++ e.Arch)) (x.OS ++ "/" ++ x.Arch))) ∧
    (p.All = false → ∀ r, p.Platforms order supported = some r → ∀ x ∈ r,
      ∃ c ∈ supported, c.Default = true ∧ c.OS = x.OS ∧ c.Arch = x.Arch) := by
  have hb : inBounds p :=
    ⟨hArch, fun v hv => ne_empty_of_isNegated (hOS v hv),
      fun v hv => ne_empty_of_isNegated (hOSArch v hv)⟩
  have heq : p.Platforms order supported =
      some (((supported.filter (fun v => v.Default || p.All)).map clearDefault).filter
        (fun x => decide (x.Arch ∈ p.Arch) && !isNegated x.Arch && !negatedIn p.OS x.OS &&
          !negatedIn p.Arch x.Arch &&
          !negatedIn (p.OSArch.map (fun e => e.OS ++ "/" ++ e.Arch)) (x.OS ++ "/" ++ x.Arch))) := by
    rw [Platforms_eq hb,
      resolved_defaults order supported (plainKeys_eq_nil hOS) (includeEntries_eq_nil hOSArch),
      defaults_eq]
    congr 1
    apply List.filter_congr
    intro x _
    rw [keep_arch_only (plainKeys_eq_nil hOS) (plainKeys_ne_nil hplain)
      (includeEntries_eq_nil hOSArch) x, isExcludedPair_eq]
    rfl
  refine ⟨heq, fun hAll r hr x hx => ?_⟩
  rw [heq] at hr
  have hr' := Option.some.inj hr
  rw [← hr'] at hx
  obtain ⟨c, hc, rfl⟩ := List.mem_map.1 (List.mem_filter.1 hx).1
  have hd := (List.mem_filter.1 hc).2
  rw [hAll] at hd
  exact ⟨c, (List.mem_filter.1 hc).1, by simpa using hd, rfl, rfl⟩

/-- C21 (witness). Over the scenario catalog: `Arch = [arm64]` gives nothing
without `All` (linux/arm64 is not a default platform) and linux/arm64 with
`All`; `Arch = [amd64]` with the exclude pair `!darwin/amd64` gives
linux/amd64; `Arch = [amd64]` with `OS = [!linux]`, or with the exclude pair
`!linux/amd64`, gives darwin/amd64. -/
theorem arch_only_filters_defaults_witness :
    (PlatformFlag.mk [] ["arm64"] [] false).Platforms id scenarioCatalog = some [] ∧
    (PlatformFlag.mk [] ["arm64"] [] true).Platforms id scenarioCatalog
      = some [⟨"linux", "arm64", false⟩] ∧
    (PlatformFlag.mk [] ["amd64"] [⟨"!darwin", "amd64", false⟩] false).Platforms id
      scenarioCatalog = some [⟨"linux", "amd64", false⟩] ∧
    (PlatformFlag.mk ["!linux"] ["amd64"] [] false).Platforms id scenarioCatalog
      = some [⟨"darwin", "amd64", false⟩] ∧
    (PlatformFlag.mk [] ["amd64"] [⟨"!linux", "amd64", false⟩] false).Platforms id
      scenarioCatalog = some [⟨"darwin", "amd64", false⟩] :=
  ⟨((arch_only_filters_defaults (PlatformFlag.mk [] ["arm64"] [] false) id scenarioCatalog
      (by decide) (by decide) (by decide) (by decide)).1).trans (by decide),
   ((arch_only_filters_defaults (PlatformFlag.mk [] ["arm64"] [] true) id scenarioCatalog
      (by decide) (by decide) (by decide) (by decide)).1).trans (by decide),
   ((arch_only_filters_defaults
      (PlatformFlag.mk [] ["amd64"] [⟨"!darwin", "amd64", false⟩] false) id scenarioCatalog
      (by decide) (by decide) (by decide) (by decide)).1).trans (by decide),
   ((arch_only_filters_defaults (PlatformFlag.mk ["!linux"] ["amd64"] [] false) id
      scenarioCatalog (by decide) (by decide) (by decide) (by decide)).1).trans (by decide),
   by decide⟩

/-! ## C22 -/

/-- C22. `Set` accepts the value `/amd64`: it has two parts separated by `/`,
the first of them empty, so `Set` returns no error and appends a platform
whose OS is the empty string; `Platforms` run on the resulting `OSArch` list
reads `v.OS[0]` of the empty string and panics. -/
theorem accepted_value_with_empty_OS :
    appendPlatformValue.Set asciiLower [] "/amd64" = ([⟨"", "amd64", false⟩], none) ∧
    (PlatformFlag.mk [] [] (appendPlatformValue.Set asciiLower [] "/amd64").1 false).Platforms id
      scenarioCatalog = none ∧
    ¬ inBounds (PlatformFlag.mk [] [] (appendPlatformValue.Set asciiLower [] "/amd64").1 false) := by
  decide

end Gox
